import Mathlib

/-!
Shallow embedding of the HTTP-Ssak3 mirror crawler (src/main.py).

Strings are modelled as lists of characters (`Str`), Python sets as
`Finset Str`, and the two persisted JSON state files as small inductive
types describing what a read of the file can yield.  External
collaborators (the HTTP client, the aria2c subprocess, and the URL
resolution performed by `urllib.parse.urljoin`) are modelled as an
explicit environment record; the crawler itself (`sync_mirror`), the
transfer dispatcher (`download_file_with_aria2`), the direct fetch
(`download_file_with_aiohttp`) and the state-store operations
(`load_visited_urls`, `save_error_url`) are translated from the source.
-/

abbrev Str := List Char

def str (s : String) : Str := s.toList

/-- Python `s.startswith(p)`. -/
def startsWith (s p : Str) : Bool := p.isPrefixOf s

/-- Python `s.endswith(p)`. -/
def endsWith (s p : Str) : Bool := p.isSuffixOf s

/-- Python `s.rstrip("/")`: remove every trailing slash. -/
def rstripSlashes (s : Str) : Str := (s.reverse.dropWhile (fun c => c = '/')).reverse

/-- Python `s.strip("/")`: remove leading and trailing slashes. -/
def stripSlashes (s : Str) : Str :=
  (((s.dropWhile (fun c => c = '/')).reverse.dropWhile (fun c => c = '/')).reverse)

/-- Python `s.lower()` (the relevant marker strings are ASCII). -/
def toLower (s : Str) : Str := s.map Char.toLower

/-- Python `pat in s` (substring test). -/
def containsSubstr (s pat : Str) : Bool := s.tails.any (fun t => pat.isPrefixOf t)

/-- Characters allowed in a URL scheme by `urllib.parse` (letters, digits, `+`, `-`, `.`). -/
def isSchemeChar (c : Char) : Bool := c.isAlpha || c.isDigit || c = '+' || c = '-' || c = '.'

/-- Whether `urllib.parse.urlparse(s).scheme` is non-empty: there is a colon,
not in the first position, the first character is a letter, and every
character before the first colon is a scheme character. -/
def hasScheme (s : Str) : Bool :=
  match s with
  | [] => false
  | c :: _ =>
    let pre := s.takeWhile (fun d => d ≠ ':')
    c.isAlpha && pre.all isSchemeChar && decide (pre.length < s.length) && !pre.isEmpty

/-- The scheme part of a URL (empty when there is none), lower-cased as
`urllib.parse` does. -/
def schemeOf (s : Str) : Str :=
  if hasScheme s then toLower (s.takeWhile (fun d => d ≠ ':')) else []

/-- The part of a URL after its last `/` (the final path segment, as in
`os.path.basename`). -/
def lastSegment (s : Str) : Str := (s.reverse.takeWhile (fun c => c ≠ '/')).reverse

/-- Python `os.path.join(a, b)` for a second argument that is not absolute. -/
def pathJoin (a b : Str) : Str :=
  if a = [] then b
  else if a.getLast? = some '/' then a ++ b
  else a ++ '/' :: b

/-- What reading the error-log JSON file can yield: the file is missing,
the read or parse raises, or parsing succeeds and the `error_urls` key is
present or absent. -/
inductive ErrorFileState where
  | missing
  | unreadable
  | parsed (error_urls : Option (List Str))
deriving DecidableEq

/-- The `urls` list built by the first half of `save_error_url`
(src/main.py lines 124-132): missing or unreadable file gives `[]`,
otherwise `data.get("error_urls", [])`. -/
def loadErrorUrls : ErrorFileState → List Str
  | ErrorFileState.missing => []
  | ErrorFileState.unreadable => []
  | ErrorFileState.parsed urls => urls.getD []

/-- `save_error_url` (src/main.py lines 123-145): read-modify-write of the
error log; the URL is appended only when absent, then the whole list is
rewritten. -/
def save_error_url (error_url : Str) (f : ErrorFileState) : ErrorFileState :=
  let urls := loadErrorUrls f
  let urls' := if error_url ∈ urls then urls else urls ++ [error_url]
  ErrorFileState.parsed (some urls')

/-- What reading the visited-log JSON file can yield: the file is
missing; the read raises `IOError` or the parse raises `JSONDecodeError`
(`unreadable`); the parse succeeds with a JSON object whose optional
`visited_urls` key holds a list of strings (`parsed`); or the parse
succeeds with valid JSON that is not such an object — a top-level array,
string or number, or an ill-typed `visited_urls` value (`illTyped`). -/
inductive VisitedFileState where
  | missing
  | unreadable
  | parsed (visited_urls : Option (List Str))
  | illTyped
deriving DecidableEq

/-- `load_visited_urls` (src/main.py lines 18-31): `some` is a normal
return, `none` an exception escaping the function.  A missing file
returns the empty set; an `IOError` or `JSONDecodeError` during read or
parse is caught by the `except` clause at line 27 and the empty set is
returned; a parsed object returns the set of its
`data.get("visited_urls", [])` entries.  But on valid JSON that is not
an object, `data.get` raises `AttributeError` (or `set(...)` raises
`TypeError` on an ill-typed value), which the
`except (orjson.JSONDecodeError, IOError)` clause does not catch, so the
exception propagates to the caller. -/
def load_visited_urls : VisitedFileState → Option (Finset Str)
  | VisitedFileState.missing => some ∅
  | VisitedFileState.unreadable => some ∅
  | VisitedFileState.parsed v => some (v.getD []).toFinset
  | VisitedFileState.illTyped => none

/-- Outcome of the `aria2c` subprocess invocation: it completed with an
exit code and captured stdout, or launching/awaiting it raised. -/
inductive ProcOutcome where
  | completed (returncode : Int) (stdout : Str)
  | exn
deriving DecidableEq

/-- Outcome of the in-process streaming GET used for `.metalink` files:
either the whole body was written, or some HTTP/IO step raised. -/
inductive FetchOutcome where
  | success
  | failure
deriving DecidableEq

/-- `download_file_with_aiohttp` (src/main.py lines 102-120): streaming
GET; on success returns True, on any exception records the URL in the
error log and returns False.  The bytes written to disk are not
modelled, only the reported outcome and the error-log update. -/
def download_file_with_aiohttp (file_url local_dir : Str) (net : FetchOutcome)
    (errFile : ErrorFileState) : Bool × ErrorFileState :=
  match net with
  | FetchOutcome.success => (true, errFile)
  | FetchOutcome.failure => (false, save_error_url file_url errFile)

/-- `download_file_with_aria2` (src/main.py lines 61-99): a URL ending in
`.metalink` is delegated to the direct fetch; otherwise the `aria2c`
subprocess runs and the result is classified from its exit code and
stdout text.  All three exit-code-zero branches return True; a non-zero
exit code or an exception records the URL in the error log and returns
False. -/
def download_file_with_aria2 (file_url local_dir : Str) (aria2_options : List Str)
    (proc : ProcOutcome) (net : FetchOutcome) (errFile : ErrorFileState) :
    Bool × ErrorFileState :=
  if endsWith file_url (str (".metalink")) then
    download_file_with_aiohttp file_url local_dir net errFile
  else
    match proc with
    | ProcOutcome.completed rc out =>
      if rc = 0 then
        if containsSubstr (toLower out) (str ("download completed")) then (true, errFile)
        else if containsSubstr (toLower out) (str ("already been completed")) then (true, errFile)
        else (true, errFile)
      else (false, save_error_url file_url errFile)
    | ProcOutcome.exn => (false, save_error_url file_url errFile)

/-- The dispatcher's value on a non-metalink URL, as a function of the
subprocess outcome only: every exit-code-zero branch returns success. -/
theorem download_aria2_not_metalink (file_url local_dir : Str)
    (aria2_options : List Str) (proc : ProcOutcome) (net : FetchOutcome)
    (errFile : ErrorFileState)
    (hml : endsWith file_url (str (".metalink")) = false) :
    download_file_with_aria2 file_url local_dir aria2_options proc net errFile =
      match proc with
      | ProcOutcome.completed rc _ =>
        if rc = 0 then (true, errFile) else (false, save_error_url file_url errFile)
      | ProcOutcome.exn => (false, save_error_url file_url errFile) := by
  unfold download_file_with_aria2
  rw [hml]
  simp only [Bool.false_eq_true, if_false]
  cases proc with
  | completed rc out =>
    by_cases hrc : rc = 0
    · subst hrc
      by_cases h1 : containsSubstr (toLower out) (str ("download completed")) = true
      · simp [h1]
      · by_cases h2 : containsSubstr (toLower out) (str ("already been completed")) = true
        · simp [h1, h2]
        · simp [h1, h2]
    · simp only [if_neg hrc]
  | exn => rfl

/-- C6: for a non-metalink URL the segmented-download strategy reports
success exactly when the subprocess exits with code 0 (also when neither
output marker is present), and on a non-zero exit code or an exception it
reports failure and records the URL via `save_error_url`. -/
theorem aria2_outcome_classification (file_url local_dir : Str)
    (aria2_options : List Str) (proc : ProcOutcome) (net : FetchOutcome)
    (errFile : ErrorFileState)
    (hml : endsWith file_url (str (".metalink")) = false) :
    ((download_file_with_aria2 file_url local_dir aria2_options proc net errFile).1 = true ↔
      ∃ out, proc = ProcOutcome.completed 0 out) ∧
    (∀ rc out, proc = ProcOutcome.completed rc out → rc ≠ 0 →
      download_file_with_aria2 file_url local_dir aria2_options proc net errFile =
        (false, save_error_url file_url errFile)) ∧
    (proc = ProcOutcome.exn →
      download_file_with_aria2 file_url local_dir aria2_options proc net errFile =
        (false, save_error_url file_url errFile)) ∧
    (∀ out, proc = ProcOutcome.completed 0 out →
      containsSubstr (toLower out) (str ("download completed")) = false →
      containsSubstr (toLower out) (str ("already been completed")) = false →
      download_file_with_aria2 file_url local_dir aria2_options proc net errFile =
        (true, errFile)) := by
  have hd := download_aria2_not_metalink file_url local_dir aria2_options proc net errFile hml
  refine ⟨?_, ?_, ?_, ?_⟩
  · rw [hd]
    cases proc with
    | completed rc out =>
      by_cases hrc : rc = 0
      · subst hrc
        simp
      · simp [hrc]
    | exn => simp
  · rintro rc out rfl hrc
    rw [hd]
    simp [hrc]
  · rintro rfl
    rw [hd]
  · rintro out rfl h1 h2
    rw [hd]
    simp

/-- Witness for C6 at concrete inputs: a non-metalink URL with exit code 0
and unrecognized output is a success, and an exception records the URL. -/
theorem aria2_outcome_classification_witness :
    ((download_file_with_aria2 (str ("http://h/a.iso")) (str ("/tmp")) []
        (ProcOutcome.completed 0 (str ("strange output"))) FetchOutcome.success
        ErrorFileState.missing).1 = true ↔
      ∃ out, ProcOutcome.completed 0 (str ("strange output")) = ProcOutcome.completed 0 out) ∧
    download_file_with_aria2 (str ("http://h/a.iso")) (str ("/tmp")) []
        ProcOutcome.exn FetchOutcome.success ErrorFileState.missing =
      (false, save_error_url (str ("http://h/a.iso")) ErrorFileState.missing) := by
  refine ⟨(aria2_outcome_classification (str ("http://h/a.iso")) (str ("/tmp")) []
      (ProcOutcome.completed 0 (str ("strange output"))) FetchOutcome.success
      ErrorFileState.missing (by decide)).1, ?_⟩
  exact (aria2_outcome_classification (str ("http://h/a.iso")) (str ("/tmp")) []
      ProcOutcome.exn FetchOutcome.success ErrorFileState.missing (by decide)).2.2.1 rfl

/-- If every element of `l1` satisfies `q`, then `l1` is a prefix of
`l2.takeWhile q` exactly when it is a prefix of `l2`. -/
theorem isPrefixOf_takeWhile (q : Char → Bool) :
    ∀ (l1 l2 : Str), (∀ c ∈ l1, q c = true) →
      l1.isPrefixOf (l2.takeWhile q) = l1.isPrefixOf l2
  | [], l2, _ => by
    have hh : ∀ (l : Str), ([] : Str).isPrefixOf l = true := fun l => by cases l <;> rfl
    rw [hh, hh]
  | a :: as, [], _ => rfl
  | a :: as, b :: bs, h => by
    rw [List.takeWhile_cons]
    cases hq : q b with
    | false =>
      have hab : ¬(a = b) := by
        intro h'
        subst h'
        rw [h a (List.mem_cons_self a as)] at hq
        cases hq
      have hb : (a == b) = false := beq_false_of_ne hab
      simp [List.isPrefixOf, hb]
    | true =>
      simp only [if_true]
      by_cases hab : a = b
      · subst hab
        have ih := isPrefixOf_takeWhile q as bs fun c hc => h c (List.mem_cons_of_mem a hc)
        simp [List.isPrefixOf, ih]
      · have hb : (a == b) = false := beq_false_of_ne hab
        simp [List.isPrefixOf, hb]

/-- A suffix test that mentions no slash can be performed on the final
path segment alone: `endsWith (lastSegment s) pat = endsWith s pat`. -/
theorem endsWith_lastSegment (s pat : Str) (hp : '/' ∉ pat) :
    endsWith (lastSegment s) pat = endsWith s pat := by
  unfold endsWith lastSegment List.isSuffixOf
  rw [List.reverse_reverse]
  exact isPrefixOf_takeWhile (fun c => c ≠ '/') pat.reverse s.reverse
    (fun c hc => by
      simp only [decide_eq_true_eq]
      intro h'
      subst h'
      exact hp (List.mem_reverse.mp hc))

/-- C7: a file URL whose final path segment ends in `.metalink` is always
routed to the direct-fetch strategy, and the supplied downloader options
(and any subprocess outcome) do not affect the result. -/
theorem metalink_routed_direct (file_url local_dir : Str)
    (opts opts' : List Str) (proc proc' : ProcOutcome) (net : FetchOutcome)
    (errFile : ErrorFileState)
    (h : endsWith (lastSegment file_url) (str (".metalink")) = true) :
    download_file_with_aria2 file_url local_dir opts proc net errFile =
      download_file_with_aiohttp file_url local_dir net errFile ∧
    download_file_with_aria2 file_url local_dir opts proc net errFile =
      download_file_with_aria2 file_url local_dir opts' proc' net errFile := by
  have hm : endsWith file_url (str (".metalink")) = true := by
    rw [← endsWith_lastSegment file_url (str (".metalink")) (by decide)]
    exact h
  constructor
  · unfold download_file_with_aria2
    rw [hm]
    simp
  · unfold download_file_with_aria2
    rw [hm]
    simp

/-- Witness for C7: `http://h/software/x.metalink` is routed to the direct
fetch, for two different option lists and subprocess outcomes. -/
theorem metalink_routed_direct_witness :
    download_file_with_aria2 (str ("http://h/software/x.metalink")) (str ("/tmp")) []
        ProcOutcome.exn FetchOutcome.success ErrorFileState.missing =
      download_file_with_aiohttp (str ("http://h/software/x.metalink")) (str ("/tmp"))
        FetchOutcome.success ErrorFileState.missing ∧
    download_file_with_aria2 (str ("http://h/software/x.metalink")) (str ("/tmp")) []
        ProcOutcome.exn FetchOutcome.success ErrorFileState.missing =
      download_file_with_aria2 (str ("http://h/software/x.metalink")) (str ("/tmp"))
        [str ("-x"), str ("16")] (ProcOutcome.completed 1 (str ("err"))) FetchOutcome.success
        ErrorFileState.missing :=
  metalink_routed_direct (str ("http://h/software/x.metalink")) (str ("/tmp")) []
    [str ("-x"), str ("16")] ProcOutcome.exn (ProcOutcome.completed 1 (str ("err")))
    FetchOutcome.success ErrorFileState.missing (by decide)

/-- Reading back the error log right after `save_error_url` wrote it. -/
theorem loadErrorUrls_save (u : Str) (f : ErrorFileState) :
    loadErrorUrls (save_error_url u f) =
      if u ∈ loadErrorUrls f then loadErrorUrls f else loadErrorUrls f ++ [u] := rfl

/-- C8 counterexample: with a prior error file already holding the URL
twice (a state the operation itself never produces, but the claim
quantifies over every prior contents), two calls leave two entries, not
exactly one: the URL is merely not re-appended. -/
theorem save_error_url_twice_counterexample :
    ((loadErrorUrls (save_error_url (str ("u")) (save_error_url (str ("u"))
        (ErrorFileState.parsed (some [str ("u"), str ("u")]))))).count (str ("u")) = 2) ∧
    ¬ ((loadErrorUrls (save_error_url (str ("u")) (save_error_url (str ("u"))
        (ErrorFileState.parsed (some [str ("u"), str ("u")]))))).count (str ("u")) = 1) := by
  constructor
  · rfl
  · decide

/-- C8 amended: for every URL `u` and every prior error-file contents in
which `u` occurs at most once, calling `save_error_url` twice with `u`
leaves exactly one entry equal to `u`; a URL already present in the
loaded collection is never appended again. -/
theorem error_record_idempotent (u : Str) (f : ErrorFileState)
    (h : (loadErrorUrls f).count u ≤ 1) :
    ((loadErrorUrls (save_error_url u (save_error_url u f))).count u = 1) ∧
    (u ∈ loadErrorUrls f → loadErrorUrls (save_error_url u f) = loadErrorUrls f) := by
  have h1 := loadErrorUrls_save u f
  have h2 := loadErrorUrls_save u (save_error_url u f)
  by_cases hm : u ∈ loadErrorUrls f
  · rw [if_pos hm] at h1
    refine ⟨?_, fun _ => h1⟩
    rw [h2, h1, if_pos hm]
    have hpos : 0 < (loadErrorUrls f).count u := List.count_pos_iff.mpr hm
    omega
  · rw [if_neg hm] at h1
    refine ⟨?_, fun hmem => absurd hmem hm⟩
    have hmem' : u ∈ loadErrorUrls f ++ [u] := by simp
    rw [h2, h1, if_pos hmem']
    rw [List.count_append]
    have h0 : (loadErrorUrls f).count u = 0 := List.count_eq_zero.mpr hm
    rw [h0]
    simp

/-- Witness for C8's amended theorem: a prior file holding `e` once. -/
theorem error_record_idempotent_witness :
    ((loadErrorUrls (save_error_url (str ("e")) (save_error_url (str ("e"))
        (ErrorFileState.parsed (some [str ("e")]))))).count (str ("e")) = 1) ∧
    loadErrorUrls (save_error_url (str ("e")) (ErrorFileState.parsed (some [str ("e")]))) =
      loadErrorUrls (ErrorFileState.parsed (some [str ("e")])) :=
  ⟨(error_record_idempotent (str ("e")) (ErrorFileState.parsed (some [str ("e")]))
      (by decide)).1,
   (error_record_idempotent (str ("e")) (ErrorFileState.parsed (some [str ("e")]))
      (by decide)).2 (by decide)⟩

/-- C9 counterexample: the Visited-Set loader can raise.  A visited-log
file holding valid JSON that is not an object — for example a top-level
array `[]` — passes `os.path.exists`, is read and parsed successfully,
and then `data.get("visited_urls", [])` raises `AttributeError`, which
`except (orjson.JSONDecodeError, IOError)` does not catch; the loader
does not return a set (and the call at src/main.py line 306 sits outside
`async_main`'s try block, so the run aborts instead of degrading to a
re-scan). -/
theorem load_state_raises_counterexample :
    load_visited_urls VisitedFileState.illTyped = none := rfl

/-- C9 (amended): on every visited-log file state other than
successfully parsed ill-typed JSON, the Visited-Set loader returns
without raising — the empty set when the file is missing or when reading
or parsing it fails with `IOError`/`JSONDecodeError` — and the error-log
reader likewise yields the empty list on a missing or unreadable file;
but valid JSON that is not an object makes the loader raise. -/
theorem load_state_graceful (f : VisitedFileState)
    (h : f ≠ VisitedFileState.illTyped) :
    (load_visited_urls f).isSome = true ∧
    load_visited_urls VisitedFileState.missing = some ∅ ∧
    load_visited_urls VisitedFileState.unreadable = some ∅ ∧
    loadErrorUrls ErrorFileState.missing = [] ∧
    loadErrorUrls ErrorFileState.unreadable = [] := by
  refine ⟨?_, rfl, rfl, rfl, rfl⟩
  cases f with
  | missing => rfl
  | unreadable => rfl
  | parsed v => rfl
  | illTyped => exact absurd rfl h

/-- Witness for C9: a well-typed parsed visited-log file is loaded
without raising. -/
theorem load_state_graceful_witness :
    VisitedFileState.parsed (some [str ("http://h/a.iso")]) ≠
      VisitedFileState.illTyped ∧
    ((load_visited_urls
        (VisitedFileState.parsed (some [str ("http://h/a.iso")]))).isSome = true ∧
    load_visited_urls VisitedFileState.missing = some ∅ ∧
    load_visited_urls VisitedFileState.unreadable = some ∅ ∧
    loadErrorUrls ErrorFileState.missing = [] ∧
    loadErrorUrls ErrorFileState.unreadable = []) :=
  ⟨by decide,
    load_state_graceful (VisitedFileState.parsed (some [str ("http://h/a.iso")]))
      (by decide)⟩

/-- The external world the crawler runs against: fetching a directory
index page yields its list of anchor hrefs (or `none` when the GET raises
or returns an error status), `resolve` is `urllib.parse.urljoin`, and
`download` is the outcome the transfer dispatcher reports for a file
URL.  All three are opaque collaborators of `sync_mirror`. -/
structure Env where
  fetch : Str → Option (List Str)
  resolve : Str → Str → Str
  download : Str → Bool

/-- The observable state threaded through `sync_mirror`: the in-memory
`visited_urls` set, the contents last written to the visited-log file,
the in-run `visited_directories` set, and in order of occurrence the
local directories created, the index pages fetched, and the file URLs
handed to the transfer dispatcher. -/
structure CrawlState where
  visitedUrls : Finset Str
  savedVisitedFile : Finset Str
  visitedDirectories : Finset Str
  dirsCreated : List Str
  fetched : List Str
  dispatched : List Str
deriving DecidableEq

/-- The filter on raw hrefs (src/main.py lines 202-208): drop an empty
href, an href starting with `?`, an href starting with `../`, and an
href with a URL scheme (`urlparse(href).scheme` truthy). -/
def keepHref (href : Str) : Bool :=
  !(href.isEmpty || startsWith href (str ("?")) || startsWith href (str ("../")) ||
    hasScheme href)

/-- The body of the link loop of `sync_mirror` for one href
(src/main.py lines 199-244): filter, resolve, scope check, self-link
check, then either recurse into a sub-directory (via `recur`, the
recursive call one fuel level down) or dispatch a file download, adding
the URL to the visited set and rewriting the visited log on success. -/
def routeLink (env : Env) (baseSyncUrl : Str)
    (recur : Str → Str → CrawlState → CrawlState × Bool)
    (currentUrl localPath href : Str) (st : CrawlState) : CrawlState × Bool :=
  if keepHref href = false then (st, true)
  else
    let nextUrl := env.resolve currentUrl href
    if startsWith nextUrl baseSyncUrl = false then (st, true)
    else if nextUrl = currentUrl then (st, true)
    else if endsWith href (str ("/")) then
      if rstripSlashes nextUrl ∉ st.visitedDirectories then
        recur nextUrl (pathJoin localPath (stripSlashes href)) st
      else (st, true)
    else
      if nextUrl ∉ st.visitedUrls then
        let st1 : CrawlState :=
          { st with dispatched := st.dispatched ++ [nextUrl] }
        if env.download nextUrl then
          ({ st1 with
              visitedUrls := insert nextUrl st1.visitedUrls,
              savedVisitedFile := insert nextUrl st1.visitedUrls }, true)
        else (st1, true)
      else (st, true)

/-- The link loop of `sync_mirror`: process the hrefs in page order, one
at a time, threading the state; a `false` flag (fuel exhaustion of the
model) aborts the loop. -/
def processLinks (env : Env) (baseSyncUrl : Str)
    (recur : Str → Str → CrawlState → CrawlState × Bool)
    (currentUrl localPath : Str) : List Str → CrawlState → CrawlState × Bool
  | [], st => (st, true)
  | href :: rest, st =>
    match routeLink env baseSyncUrl recur currentUrl localPath href st with
    | (st1, true) => processLinks env baseSyncUrl recur currentUrl localPath rest st1
    | (st1, false) => (st1, false)

/-- `sync_mirror` (src/main.py lines 148-244), with a fuel parameter in
place of Python's unbounded recursion: normalize the url, return if the
directory was already seen this run or is in the persisted visited set,
otherwise record it, create the local directory, fetch the index page
(returning on a fetch error or an empty link list) and process the
links.  The returned flag is `false` exactly when the model ran out of
fuel. -/
def sync_mirror (env : Env) (baseSyncUrl : Str) :
    Nat → Str → Str → CrawlState → CrawlState × Bool
  | 0, _, _, st => (st, false)
  | fuel + 1, currentUrl, localPath, st =>
    let normalizedUrl := rstripSlashes currentUrl
    if normalizedUrl ∈ st.visitedDirectories then (st, true)
    else
      let st1 : CrawlState :=
        { st with visitedDirectories := insert normalizedUrl st.visitedDirectories }
      if normalizedUrl ∈ st1.visitedUrls then (st1, true)
      else
        let st2 : CrawlState := { st1 with dirsCreated := st1.dirsCreated ++ [localPath] }
        let st3 : CrawlState := { st2 with fetched := st2.fetched ++ [currentUrl] }
        match env.fetch currentUrl with
        | none => (st3, true)
        | some links =>
          if links.isEmpty then (st3, true)
          else
            processLinks env baseSyncUrl
              (fun u lp s => sync_mirror env baseSyncUrl fuel u lp s)
              currentUrl localPath links st3

/-- `async_main` (src/main.py lines 288-321): enforce a trailing slash on
the base URL. -/
def target_base_url (base_url : Str) : Str :=
  if endsWith base_url (str ("/")) then base_url else base_url ++ str ("/")

/-- The crawl state `async_main` starts from: the loaded visited set, an
unchanged visited-log file, and everything else empty. -/
def initialState (visitedUrls : Finset Str) : CrawlState :=
  { visitedUrls := visitedUrls,
    savedVisitedFile := visitedUrls,
    visitedDirectories := ∅,
    dirsCreated := [],
    fetched := [],
    dispatched := [] }

/-- The crawl `async_main` performs (src/main.py lines 306-321): both the
starting URL and the base scope are the trailing-slash-enforced base
URL. -/
def async_main_crawl (env : Env) (fuel : Nat) (base_url local_download_root : Str)
    (visitedUrls : Finset Str) : CrawlState × Bool :=
  sync_mirror env (target_base_url base_url) fuel (target_base_url base_url)
    local_download_root (initialState visitedUrls)

/-- `st'` extends `st`: the two visited sets only grow, and the recorded
directory creations, page fetches and dispatcher invocations are only
appended to. -/
def Extends (st st' : CrawlState) : Prop :=
  st.visitedUrls ⊆ st'.visitedUrls ∧
  st.visitedDirectories ⊆ st'.visitedDirectories ∧
  (∀ u ∈ st.dirsCreated, u ∈ st'.dirsCreated) ∧
  (∀ u ∈ st.fetched, u ∈ st'.fetched) ∧
  (∀ u ∈ st.dispatched, u ∈ st'.dispatched)

theorem extends_refl (st : CrawlState) : Extends st st :=
  ⟨Finset.Subset.refl _, Finset.Subset.refl _, fun _ h => h, fun _ h => h, fun _ h => h⟩

theorem extends_trans {s t u : CrawlState} (h1 : Extends s t) (h2 : Extends t u) :
    Extends s u :=
  ⟨h1.1.trans h2.1, h1.2.1.trans h2.2.1,
   fun x hx => h2.2.2.1 x (h1.2.2.1 x hx),
   fun x hx => h2.2.2.2.1 x (h1.2.2.2.1 x hx),
   fun x hx => h2.2.2.2.2 x (h1.2.2.2.2 x hx)⟩

theorem routeLink_extends (env : Env) (B : Str)
    (recur : Str → Str → CrawlState → CrawlState × Bool)
    (cur lp href : Str) (st : CrawlState)
    (hrec : ∀ u lp' s, Extends s (recur u lp' s).1) :
    Extends st (routeLink env B recur cur lp href st).1 := by
  unfold routeLink
  dsimp only
  repeat' split
  all_goals first
    | exact extends_refl _
    | apply hrec
    | exact ⟨Finset.subset_insert _ _, Finset.Subset.refl _, fun _ h => h, fun _ h => h,
        fun _ h => List.mem_append_left _ h⟩
    | exact ⟨Finset.Subset.refl _, Finset.Subset.refl _, fun _ h => h, fun _ h => h,
        fun _ h => List.mem_append_left _ h⟩

theorem processLinks_extends (env : Env) (B : Str)
    (recur : Str → Str → CrawlState → CrawlState × Bool)
    (cur lp : Str) (hrec : ∀ u lp' s, Extends s (recur u lp' s).1) :
    ∀ (links : List Str) (st : CrawlState),
      Extends st (processLinks env B recur cur lp links st).1
  | [], st => extends_refl st
  | href :: rest, st => by
    have h1 := routeLink_extends env B recur cur lp href st hrec
    unfold processLinks
    cases hr : routeLink env B recur cur lp href st with
    | mk st1 ok =>
      rw [hr] at h1
      cases ok with
      | true =>
        exact extends_trans h1 (processLinks_extends env B recur cur lp hrec rest st1)
      | false => exact h1

theorem sync_mirror_extends (env : Env) (B : Str) :
    ∀ (fuel : Nat) (cur lp : Str) (st : CrawlState),
      Extends st (sync_mirror env B fuel cur lp st).1
  | 0, _, _, st => extends_refl st
  | fuel + 1, cur, lp, st => by
    unfold sync_mirror
    dsimp only
    repeat' split
    all_goals first
      | exact extends_refl _
      | exact ⟨Finset.Subset.refl _, Finset.subset_insert _ _, fun _ h => h, fun _ h => h,
          fun _ h => h⟩
      | exact ⟨Finset.Subset.refl _, Finset.subset_insert _ _,
          fun _ h => List.mem_append_left _ h, fun _ h => List.mem_append_left _ h,
          fun _ h => h⟩
      | (refine extends_trans ?_ (processLinks_extends env B
            (fun u lp' s => sync_mirror env B fuel u lp' s) cur lp
            (fun u lp' s => sync_mirror_extends env B fuel u lp' s) _ _)
         exact ⟨Finset.Subset.refl _, Finset.subset_insert _ _,
           fun _ h => List.mem_append_left _ h, fun _ h => List.mem_append_left _ h,
           fun _ h => h⟩)

/-- C10: a directory URL passing both entry guards has its local
directory created (and its index fetch issued) even when the fetch
fails, while a directory skipped by either guard leaves the state — in
particular `dirsCreated` — unchanged apart from the in-run directory set. -/
theorem dir_creation_before_fetch (env : Env) (B : Str) (fuel : Nat)
    (cur lp : Str) (st : CrawlState) :
    (rstripSlashes cur ∈ st.visitedDirectories →
      sync_mirror env B (fuel + 1) cur lp st = (st, true)) ∧
    (rstripSlashes cur ∉ st.visitedDirectories → rstripSlashes cur ∈ st.visitedUrls →
      sync_mirror env B (fuel + 1) cur lp st =
        ({ st with visitedDirectories := insert (rstripSlashes cur) st.visitedDirectories },
          true)) ∧
    (rstripSlashes cur ∉ st.visitedDirectories → rstripSlashes cur ∉ st.visitedUrls →
      lp ∈ (sync_mirror env B (fuel + 1) cur lp st).1.dirsCreated ∧
      cur ∈ (sync_mirror env B (fuel + 1) cur lp st).1.fetched) := by
  refine ⟨?_, ?_, ?_⟩
  · intro h
    unfold sync_mirror
    dsimp only
    rw [if_pos h]
  · intro h1 h2
    unfold sync_mirror
    dsimp only
    rw [if_neg h1, if_pos h2]
  · intro h1 h2
    unfold sync_mirror
    dsimp only
    rw [if_neg h1, if_neg h2]
    cases hf : env.fetch cur with
    | none => exact ⟨by simp, by simp⟩
    | some links =>
      dsimp only
      by_cases he : links.isEmpty = true
      · rw [if_pos he]
        exact ⟨by simp, by simp⟩
      · rw [if_neg he]
        have hext := processLinks_extends env B
          (fun u lp' s => sync_mirror env B fuel u lp' s) cur lp
          (fun u lp' s => sync_mirror_extends env B fuel u lp' s) links
          { st with
              visitedDirectories := insert (rstripSlashes cur) st.visitedDirectories,
              dirsCreated := st.dirsCreated ++ [lp],
              fetched := st.fetched ++ [cur] }
        exact ⟨hext.2.2.1 lp (by simp), hext.2.2.2.1 cur (by simp)⟩

/-- An environment in which every index fetch fails. -/
def envNone : Env :=
  { fetch := fun _ => none,
    resolve := fun cur href => cur ++ href,
    download := fun _ => true }

/-- Witness for C10: a fresh directory gets its local directory created
and its fetch issued even though the fetch fails. -/
theorem dir_creation_before_fetch_witness :
    str ("/mnt/x") ∈ (sync_mirror envNone (str ("http://h/")) 1 (str ("http://h/"))
      (str ("/mnt/x")) (initialState ∅)).1.dirsCreated ∧
    str ("http://h/") ∈ (sync_mirror envNone (str ("http://h/")) 1 (str ("http://h/"))
      (str ("/mnt/x")) (initialState ∅)).1.fetched :=
  (dir_creation_before_fetch envNone (str ("http://h/")) 0 (str ("http://h/"))
    (str ("/mnt/x")) (initialState ∅)).2.2 (by decide) (by decide)

/-- C4: when the link loop reaches a fresh file link, the dispatcher is
invoked; on success the URL is added to the visited set and the whole
updated set becomes the visited-log file contents before the remaining
links are processed; on failure neither the visited set nor the
visited-log file changes. -/
theorem file_transfer_bookkeeping (env : Env) (B : Str)
    (recur : Str → Str → CrawlState → CrawlState × Bool)
    (cur lp href : Str) (rest : List Str) (st : CrawlState)
    (hkeep : keepHref href = true)
    (hscope : startsWith (env.resolve cur href) B = true)
    (hself : env.resolve cur href ≠ cur)
    (hfile : endsWith href (str ("/")) = false)
    (hnew : env.resolve cur href ∉ st.visitedUrls) :
    (env.download (env.resolve cur href) = true →
      processLinks env B recur cur lp (href :: rest) st =
        processLinks env B recur cur lp rest
          { st with
              dispatched := st.dispatched ++ [env.resolve cur href],
              visitedUrls := insert (env.resolve cur href) st.visitedUrls,
              savedVisitedFile := insert (env.resolve cur href) st.visitedUrls }) ∧
    (env.download (env.resolve cur href) = false →
      processLinks env B recur cur lp (href :: rest) st =
        processLinks env B recur cur lp rest
          { st with dispatched := st.dispatched ++ [env.resolve cur href] }) := by
  constructor
  · intro hd
    have hroute : routeLink env B recur cur lp href st =
        ({ st with
            dispatched := st.dispatched ++ [env.resolve cur href],
            visitedUrls := insert (env.resolve cur href) st.visitedUrls,
            savedVisitedFile := insert (env.resolve cur href) st.visitedUrls }, true) := by
      unfold routeLink
      dsimp only
      simp [hkeep, hscope, hself, hfile, hnew, hd]
    simp only [processLinks]
    rw [hroute]
  · intro hd
    have hroute : routeLink env B recur cur lp href st =
        ({ st with dispatched := st.dispatched ++ [env.resolve cur href] }, true) := by
      unfold routeLink
      dsimp only
      simp [hkeep, hscope, hself, hfile, hnew, hd]
    simp only [processLinks]
    rw [hroute]

/-- A recursion oracle that does nothing (used only to instantiate the
link-loop theorems at concrete inputs). -/
def trivialRecur : Str → Str → CrawlState → CrawlState × Bool := fun _ _ s => (s, true)

/-- Environments whose dispatcher always reports the given outcome. -/
def envDl (b : Bool) : Env :=
  { fetch := fun _ => some [],
    resolve := fun cur href => cur ++ href,
    download := fun _ => b }

/-- Witness for C4 at a concrete file link, in a succeeding and in a
failing environment. -/
theorem file_transfer_bookkeeping_witness :
    (processLinks (envDl true) (str ("http://h/")) trivialRecur (str ("http://h/"))
        (str ("/d")) [str ("f.iso")] (initialState ∅) =
      processLinks (envDl true) (str ("http://h/")) trivialRecur (str ("http://h/"))
        (str ("/d")) []
        { initialState ∅ with
            dispatched := (initialState ∅).dispatched ++
              [(envDl true).resolve (str ("http://h/")) (str ("f.iso"))],
            visitedUrls := insert ((envDl true).resolve (str ("http://h/")) (str ("f.iso")))
              (initialState ∅).visitedUrls,
            savedVisitedFile :=
              insert ((envDl true).resolve (str ("http://h/")) (str ("f.iso")))
                (initialState ∅).visitedUrls }) ∧
    (processLinks (envDl false) (str ("http://h/")) trivialRecur (str ("http://h/"))
        (str ("/d")) [str ("f.iso")] (initialState ∅) =
      processLinks (envDl false) (str ("http://h/")) trivialRecur (str ("http://h/"))
        (str ("/d")) []
        { initialState ∅ with
            dispatched := (initialState ∅).dispatched ++
              [(envDl false).resolve (str ("http://h/")) (str ("f.iso"))] }) :=
  ⟨(file_transfer_bookkeeping (envDl true) (str ("http://h/")) trivialRecur
      (str ("http://h/")) (str ("/d")) (str ("f.iso")) [] (initialState ∅)
      (by decide) (by decide) (by decide) (by decide) (by decide)).1 rfl,
   (file_transfer_bookkeeping (envDl false) (str ("http://h/")) trivialRecur
      (str ("http://h/")) (str ("/d")) (str ("f.iso")) [] (initialState ∅)
      (by decide) (by decide) (by decide) (by decide) (by decide)).2 rfl⟩

/-- Every list is a prefix of itself (on the executable test). -/
theorem startsWith_self (s : Str) : startsWith s s = true := by
  unfold startsWith
  induction s with
  | nil => rfl
  | cons a l ih => simp [List.isPrefixOf, ih]

/-- The scope invariant: every index page fetched and every file URL
dispatched so far starts with the base-scope prefix. -/
def ScopeInv (B : Str) (st : CrawlState) : Prop :=
  (∀ u ∈ st.fetched, startsWith u B = true) ∧
  (∀ u ∈ st.dispatched, startsWith u B = true)

theorem routeLink_scope (env : Env) (B : Str)
    (recur : Str → Str → CrawlState → CrawlState × Bool)
    (cur lp href : Str) (st : CrawlState)
    (hrec : ∀ u lp' s, startsWith u B = true → ScopeInv B s → ScopeInv B (recur u lp' s).1)
    (hst : ScopeInv B st) :
    ScopeInv B (routeLink env B recur cur lp href st).1 := by
  unfold routeLink
  dsimp only
  repeat' split
  all_goals first
    | exact hst
    | (apply hrec
       · simp_all
       · exact hst)
    | (refine ⟨hst.1, fun u hu => ?_⟩
       rcases List.mem_append.mp hu with h | h
       · exact hst.2 u h
       · rw [List.mem_singleton.mp h]
         simp_all)

theorem processLinks_scope (env : Env) (B : Str)
    (recur : Str → Str → CrawlState → CrawlState × Bool)
    (cur lp : Str)
    (hrec : ∀ u lp' s, startsWith u B = true → ScopeInv B s → ScopeInv B (recur u lp' s).1) :
    ∀ (links : List Str) (st : CrawlState), ScopeInv B st →
      ScopeInv B (processLinks env B recur cur lp links st).1
  | [], st, hst => hst
  | href :: rest, st, hst => by
    have h1 := routeLink_scope env B recur cur lp href st hrec hst
    simp only [processLinks]
    cases hr : routeLink env B recur cur lp href st with
    | mk st1 ok =>
      rw [hr] at h1
      cases ok with
      | true => exact processLinks_scope env B recur cur lp hrec rest st1 h1
      | false => exact h1

theorem sync_mirror_scope (env : Env) (B : Str) :
    ∀ (fuel : Nat) (cur lp : Str) (st : CrawlState),
      startsWith cur B = true → ScopeInv B st →
      ScopeInv B (sync_mirror env B fuel cur lp st).1
  | 0, _, _, _, _, hst => hst
  | fuel + 1, cur, lp, st, hcur, hst => by
    unfold sync_mirror
    dsimp only
    have hst3 : ScopeInv B
        { st with
            visitedDirectories := insert (rstripSlashes cur) st.visitedDirectories,
            dirsCreated := st.dirsCreated ++ [lp],
            fetched := st.fetched ++ [cur] } := by
      refine ⟨fun u hu => ?_, hst.2⟩
      rcases List.mem_append.mp hu with h | h
      · exact hst.1 u h
      · rw [List.mem_singleton.mp h]
        exact hcur
    repeat' split
    all_goals first
      | exact hst
      | exact ⟨hst.1, hst.2⟩
      | exact hst3
      | exact processLinks_scope env B
          (fun u lp' s => sync_mirror env B fuel u lp' s) cur lp
          (fun u lp' s hu hs => sync_mirror_scope env B fuel u lp' s hu hs) _ _ hst3

/-- C3: every index page the crawl started by `async_main` fetches and
every file URL it hands to the transfer dispatcher starts with the
base-scope prefix (the starting URL with a trailing slash enforced), and
a link whose resolved absolute URL does not start with that prefix is
skipped with the state unchanged. -/
theorem scope_containment (env : Env) (fuel : Nat) (b lp : Str) (V : Finset Str) :
    (∀ u ∈ (async_main_crawl env fuel b lp V).1.fetched,
      startsWith u (target_base_url b) = true) ∧
    (∀ u ∈ (async_main_crawl env fuel b lp V).1.dispatched,
      startsWith u (target_base_url b) = true) ∧
    (∀ (recur : Str → Str → CrawlState → CrawlState × Bool) (cur lp' href : Str)
        (st : CrawlState),
      keepHref href = true →
      startsWith (env.resolve cur href) (target_base_url b) = false →
      routeLink env (target_base_url b) recur cur lp' href st = (st, true)) := by
  have h := sync_mirror_scope env (target_base_url b) fuel (target_base_url b) lp
    (initialState V) (startsWith_self _)
    ⟨fun u hu => absurd hu (List.not_mem_nil u), fun u hu => absurd hu (List.not_mem_nil u)⟩
  refine ⟨h.1, h.2, ?_⟩
  intro recur cur lp' href st hkeep hscope
  unfold routeLink
  dsimp only
  simp [hkeep, hscope]

/-- A small demo environment: the base page lists one file and one
sub-directory; every other fetch fails. -/
def envDemo : Env :=
  { fetch := fun u =>
      if u = str ("http://h/") then some [str ("a.iso"), str ("sub/")] else none,
    resolve := fun cur href => cur ++ href,
    download := fun _ => true }

/-- Witness for C3: in the demo crawl, the dispatched file URL and the
fetched sub-directory URL both start with the enforced base prefix. -/
theorem scope_containment_witness :
    startsWith (str ("http://h/a.iso")) (target_base_url (str ("http://h"))) = true ∧
    (str ("http://h/a.iso")) ∈
      (async_main_crawl envDemo 3 (str ("http://h")) (str ("/d")) ∅).1.dispatched ∧
    startsWith (str ("http://h/sub/")) (target_base_url (str ("http://h"))) = true ∧
    (str ("http://h/sub/")) ∈
      (async_main_crawl envDemo 3 (str ("http://h")) (str ("/d")) ∅).1.fetched :=
  ⟨(scope_containment envDemo 3 (str ("http://h")) (str ("/d")) ∅).2.1 _ (by decide),
   by decide,
   (scope_containment envDemo 3 (str ("http://h")) (str ("/d")) ∅).1 _ (by decide),
   by decide⟩

theorem routeLink_completes (env : Env) (B : Str) (S : Finset Str)
    (recur : Str → Str → CrawlState → CrawlState × Bool)
    (cur lp href : Str) (fuel : Nat) (st : CrawlState)
    (hin : rstripSlashes (env.resolve cur href) ∈ S)
    (hrec : ∀ u lp' s, rstripSlashes u ∈ S →
      (S \ s.visitedDirectories).card < fuel → (recur u lp' s).2 = true)
    (hcard : (S \ st.visitedDirectories).card < fuel) :
    (routeLink env B recur cur lp href st).2 = true := by
  unfold routeLink
  dsimp only
  repeat' split
  all_goals first
    | rfl
    | exact hrec _ _ _ hin hcard

theorem processLinks_completes (env : Env) (B : Str) (S : Finset Str)
    (recur : Str → Str → CrawlState → CrawlState × Bool)
    (cur lp : Str) (fuel : Nat)
    (hrecext : ∀ u lp' s, Extends s (recur u lp' s).1)
    (hrec : ∀ u lp' s, rstripSlashes u ∈ S →
      (S \ s.visitedDirectories).card < fuel → (recur u lp' s).2 = true) :
    ∀ (links : List Str) (st : CrawlState),
      (∀ href ∈ links, rstripSlashes (env.resolve cur href) ∈ S) →
      (S \ st.visitedDirectories).card < fuel →
      (processLinks env B recur cur lp links st).2 = true
  | [], _, _, _ => rfl
  | href :: rest, st, hin, hcard => by
    simp only [processLinks]
    have hok := routeLink_completes env B S recur cur lp href fuel st
      (hin href (List.mem_cons_self href rest)) hrec hcard
    have hext := routeLink_extends env B recur cur lp href st hrecext
    cases hr : routeLink env B recur cur lp href st with
    | mk st1 ok =>
      rw [hr] at hok hext
      cases ok with
      | true =>
        have hcard1 : (S \ st1.visitedDirectories).card < fuel :=
          lt_of_le_of_lt
            (Finset.card_le_card
              (Finset.sdiff_subset_sdiff (Finset.Subset.refl S) hext.2.1)) hcard
        exact processLinks_completes env B S recur cur lp fuel hrecext hrec rest st1
          (fun h hm => hin h (List.mem_cons_of_mem _ hm)) hcard1
      | false => exact absurd hok (by simp)

theorem sync_mirror_completes (env : Env) (B : Str) (S : Finset Str)
    (hres : ∀ u l href, env.fetch u = some l → href ∈ l →
      rstripSlashes (env.resolve u href) ∈ S) :
    ∀ (fuel : Nat) (cur lp : Str) (st : CrawlState),
      rstripSlashes cur ∈ S →
      (S \ st.visitedDirectories).card < fuel →
      (sync_mirror env B fuel cur lp st).2 = true
  | 0, _, _, _, _, hfuel => absurd hfuel (by omega)
  | fuel + 1, cur, lp, st, hcur, hfuel => by
    unfold sync_mirror
    dsimp only
    by_cases h1 : rstripSlashes cur ∈ st.visitedDirectories
    · rw [if_pos h1]
    · rw [if_neg h1]
      by_cases h2 : rstripSlashes cur ∈ st.visitedUrls
      · rw [if_pos h2]
      · rw [if_neg h2]
        cases hf : env.fetch cur with
        | none => rfl
        | some links =>
          dsimp only
          by_cases he : links.isEmpty = true
          · rw [if_pos he]
          · rw [if_neg he]
            have hmem : rstripSlashes cur ∈ S \ st.visitedDirectories :=
              Finset.mem_sdiff.mpr ⟨hcur, h1⟩
            have hcard3 :
                (S \ insert (rstripSlashes cur) st.visitedDirectories).card < fuel := by
              rw [Finset.sdiff_insert]
              rw [Finset.card_erase_of_mem hmem]
              have hpos : 0 < (S \ st.visitedDirectories).card :=
                Finset.card_pos.mpr ⟨_, hmem⟩
              omega
            exact processLinks_completes env B S
              (fun u lp' s => sync_mirror env B fuel u lp' s) cur lp fuel
              (fun u lp' s => sync_mirror_extends env B fuel u lp' s)
              (fun u lp' s hu hc => sync_mirror_completes env B S hres fuel u lp' s hu hc)
              links _ (fun href hm => hres cur links href hf hm) hcard3

/-- C2: if the normalized URLs of the start page and of every resolvable
link lie in a finite set `S` of directory URLs (in particular for an
index tree whose pages link to themselves or to ancestors), then the
crawl completes within `card S` nested calls: fuel exceeding the number
of distinct directory URLs not yet visited is never exhausted, because
each entered directory is added to the in-run Visited-Directories Set
before recursing and a directory already in that set returns
immediately. -/
theorem crawl_cycle_safe (env : Env) (B : Str) (S : Finset Str) (fuel : Nat)
    (cur lp : Str) (st : CrawlState)
    (hres : ∀ u l href, env.fetch u = some l → href ∈ l →
      rstripSlashes (env.resolve u href) ∈ S)
    (hcur : rstripSlashes cur ∈ S)
    (hfuel : (S \ st.visitedDirectories).card < fuel) :
    (sync_mirror env B fuel cur lp st).2 = true ∧
    (rstripSlashes cur ∈ st.visitedDirectories →
      sync_mirror env B fuel cur lp st = (st, true)) := by
  refine ⟨sync_mirror_completes env B S hres fuel cur lp st hcur hfuel, ?_⟩
  intro hmem
  cases fuel with
  | zero => exact absurd hfuel (by omega)
  | succ n =>
    unfold sync_mirror
    dsimp only
    rw [if_pos hmem]

/-- An environment with a cycle: the base page links to `x/`, whose page
links back to the root via the absolute-path href `/`. -/
def envCycle : Env :=
  { fetch := fun u =>
      if u = str ("http://h/") then some [str ("x/")]
      else if u = str ("http://h/x/") then some [str ("/")]
      else none,
    resolve := fun cur href => if href = str ("/") then str ("http://h/") else cur ++ href,
    download := fun _ => true }

/-- Witness for C2: the crawl over the cyclic two-directory environment
completes with fuel 3 > 2 distinct directory URLs. -/
theorem crawl_cycle_safe_witness :
    (sync_mirror envCycle (str ("http://h/")) 3 (str ("http://h/")) (str ("/d"))
      (initialState ∅)).2 = true ∧
    (rstripSlashes (str ("http://h/")) ∈ (initialState ∅).visitedDirectories →
      sync_mirror envCycle (str ("http://h/")) 3 (str ("http://h/")) (str ("/d"))
        (initialState ∅) = (initialState ∅, true)) := by
  refine crawl_cycle_safe envCycle (str ("http://h/"))
    {str ("http://h"), str ("http://h/x")} 3 (str ("http://h/")) (str ("/d"))
    (initialState ∅) ?_ (by decide) (by decide)
  intro u l href hf hm
  unfold envCycle at hf
  dsimp only at hf
  by_cases h1 : u = str ("http://h/")
  · rw [if_pos h1] at hf
    injection hf with hl
    subst hl
    have hh : href = str ("x/") := by simpa using hm
    subst hh
    subst h1
    decide
  · rw [if_neg h1] at hf
    by_cases h2 : u = str ("http://h/x/")
    · rw [if_pos h2] at hf
      injection hf with hl
      subst hl
      have hh : href = str ("/") := by simpa using hm
      subst hh
      subst h2
      decide
    · rw [if_neg h2] at hf
      cases hf

/-- `takeWhile` stops exactly at the first failing element. -/
theorem takeWhile_append_of_not (p : Char → Bool) :
    ∀ (l1 : Str) (a : Char) (l2 : Str), (∀ c ∈ l1, p c = true) → p a = false →
      (l1 ++ a :: l2).takeWhile p = l1
  | [], a, l2, _, hpa => by simp [List.takeWhile_cons, hpa]
  | c :: l1, a, l2, h, hpa => by
    have hc : p c = true := h c (List.mem_cons_self c l1)
    simp only [List.cons_append, List.takeWhile_cons, hc, if_true]
    rw [takeWhile_append_of_not p l1 a l2 (fun d hd => h d (List.mem_cons_of_mem c hd)) hpa]

/-- The head of a non-empty `dropWhile` result fails the predicate. -/
theorem dropWhile_head_false (p : Char → Bool) :
    ∀ (l : Str) (d : Char) (ds : Str), l.dropWhile p = d :: ds → p d = false
  | [], _, _, h => by cases h
  | a :: l, d, ds, h => by
    rw [List.dropWhile_cons] at h
    by_cases hpa : p a = true
    · rw [if_pos hpa] at h
      exact dropWhile_head_false p l d ds h
    · rw [if_neg hpa] at h
      injection h with h1 h2
      subst h1
      cases hq : p a with
      | false => rfl
      | true => exact absurd hq hpa

/-- The propositional reading of `urlparse(href).scheme` being non-empty:
`href` splits as `pre ++ ':' :: rest` where `pre` is a non-empty
colon-free run of scheme characters whose first character is a letter. -/
def HasSchemeP (href : Str) : Prop :=
  ∃ pre rest, href = pre ++ ':' :: rest ∧ pre ≠ [] ∧ ':' ∉ pre ∧
    (∃ c cs, pre = c :: cs ∧ c.isAlpha = true) ∧ ∀ x ∈ pre, isSchemeChar x = true

/-- The executable scheme test agrees with its propositional reading. -/
theorem hasScheme_iff (href : Str) : hasScheme href = true ↔ HasSchemeP href := by
  constructor
  · intro h
    unfold hasScheme at h
    cases href with
    | nil => cases h
    | cons c s =>
      dsimp only at h
      rw [Bool.and_eq_true, Bool.and_eq_true, Bool.and_eq_true] at h
      obtain ⟨⟨⟨halpha, hall⟩, hlen⟩, hne⟩ := h
      rw [decide_eq_true_eq] at hlen
      rw [Bool.not_eq_true'] at hne
      have hsplit := List.takeWhile_append_dropWhile (fun d => decide (d ≠ ':')) (c :: s)
      have hlensum := congrArg List.length hsplit
      rw [List.length_append] at hlensum
      cases hdw : (c :: s).dropWhile (fun d => decide (d ≠ ':')) with
      | nil =>
        rw [hdw] at hlensum
        simp only [List.length_nil] at hlensum
        omega
      | cons d ds =>
        have hd : (fun d => decide (d ≠ ':')) d = false := dropWhile_head_false _ _ d ds hdw
        have hd' : d = ':' := by simpa using hd
        rw [hdw, hd'] at hsplit
        refine ⟨(c :: s).takeWhile (fun d => decide (d ≠ ':')), ds, hsplit.symm, ?_, ?_, ?_, ?_⟩
        · intro hnil
          rw [hnil] at hne
          cases hne
        · intro hmem
          simpa using List.mem_takeWhile_imp hmem
        · have htc := List.takeWhile_cons (fun d => decide (d ≠ ':')) c s
          by_cases hpc : (fun d => decide (d ≠ ':')) c = true
          · rw [if_pos hpc] at htc
            exact ⟨c, s.takeWhile (fun d => decide (d ≠ ':')), htc, halpha⟩
          · rw [if_neg hpc] at htc
            rw [htc] at hne
            cases hne
        · rw [List.all_eq_true] at hall
          exact hall
  · rintro ⟨pre, rest, heq, hne, hnotin, ⟨c, cs, hpc, halpha⟩, hall⟩
    subst hpc
    subst heq
    have htw : ((c :: cs) ++ ':' :: rest).takeWhile (fun d => decide (d ≠ ':')) = c :: cs := by
      refine takeWhile_append_of_not _ (c :: cs) ':' rest ?_ (by simp)
      intro x hx
      simp only [decide_eq_true_eq]
      intro hxx
      subst hxx
      exact hnotin hx
    unfold hasScheme
    simp only [List.cons_append] at htw ⊢
    simp only [htw]
    rw [Bool.and_eq_true, Bool.and_eq_true, Bool.and_eq_true]
    refine ⟨⟨⟨halpha, List.all_eq_true.mpr hall⟩, ?_⟩, by simp⟩
    rw [decide_eq_true_eq]
    simp only [List.length_cons, List.length_append]
    omega

/-- Modelled from the spec: the claimed link filter, which discards
empty hrefs, `?`-prefixed hrefs, `../`-prefixed hrefs, and absolute URLs
whose scheme differs from the current page's scheme — so an absolute URL
whose scheme matches the page's scheme would be kept. -/
def keepHrefSpec (page_url href : Str) : Bool :=
  !(href.isEmpty || startsWith href (str ("?")) || startsWith href (str ("../")) ||
    (hasScheme href && !(schemeOf href == schemeOf page_url)))

/-- C5 counterexample: on a page whose URL has scheme `http`, the code's
filter discards the absolute href `http://host/sub/` even though its
scheme matches, while the claimed filter keeps it. -/
theorem link_filter_scheme_counterexample :
    keepHref (str ("http://host/sub/")) = false ∧
    keepHrefSpec (str ("http://host/dir/")) (str ("http://host/sub/")) = true := by
  constructor
  · rfl
  · rfl

/-- C5 amended: the filter discards exactly the empty hrefs, the
`?`-prefixed hrefs, the `../`-prefixed hrefs, and the hrefs carrying any
URL scheme (even one equal to the current page's scheme); a discarded
href leaves the state untouched, and every kept href is resolved against
the current directory URL and processed (here: a kept in-scope non-self
directory href drives the recursion at its resolved URL). -/
theorem link_filter_characterization (href : Str) :
    (keepHref href = false ↔
      href = [] ∨ startsWith href (str ("?")) = true ∨
      startsWith href (str ("../")) = true ∨ HasSchemeP href) ∧
    (∀ (env : Env) (B : Str) (recur : Str → Str → CrawlState → CrawlState × Bool)
        (cur lp : Str) (st : CrawlState), keepHref href = false →
      routeLink env B recur cur lp href st = (st, true)) ∧
    (∀ (env : Env) (B : Str) (recur : Str → Str → CrawlState → CrawlState × Bool)
        (cur lp : Str) (st : CrawlState), keepHref href = true →
      startsWith (env.resolve cur href) B = true →
      env.resolve cur href ≠ cur →
      endsWith href (str ("/")) = true →
      rstripSlashes (env.resolve cur href) ∉ st.visitedDirectories →
      routeLink env B recur cur lp href st =
        recur (env.resolve cur href) (pathJoin lp (stripSlashes href)) st) := by
  refine ⟨?_, ?_, ?_⟩
  · unfold keepHref
    rw [Bool.not_eq_false']
    rw [Bool.or_eq_true, Bool.or_eq_true, Bool.or_eq_true]
    rw [List.isEmpty_iff, hasScheme_iff]
    tauto
  · intro env B recur cur lp st hkeep
    unfold routeLink
    rw [hkeep]
    simp
  · intro env B recur cur lp st hkeep hscope hself hdir hnew
    unfold routeLink
    dsimp only
    simp [hkeep, hscope, hself, hdir, hnew]

/-- Witness for C5's amended theorem: the scheme-bearing href is skipped
with the state unchanged, and the kept directory href `sub/` drives the
recursion at its resolved URL. -/
theorem link_filter_characterization_witness :
    routeLink envDemo (str ("http://h/")) trivialRecur (str ("http://h/")) (str ("/d"))
        (str ("http://host/sub/")) (initialState ∅) = (initialState ∅, true) ∧
    routeLink envDemo (str ("http://h/")) trivialRecur (str ("http://h/")) (str ("/d"))
        (str ("sub/")) (initialState ∅) =
      trivialRecur (envDemo.resolve (str ("http://h/")) (str ("sub/")))
        (pathJoin (str ("/d")) (stripSlashes (str ("sub/")))) (initialState ∅) :=
  ⟨(link_filter_characterization (str ("http://host/sub/"))).2.1 envDemo
      (str ("http://h/")) trivialRecur (str ("http://h/")) (str ("/d")) (initialState ∅)
      (by decide),
   (link_filter_characterization (str ("sub/"))).2.2 envDemo (str ("http://h/"))
      trivialRecur (str ("http://h/")) (str ("/d")) (initialState ∅)
      (by decide) (by decide) (by decide) (by decide) (by decide)⟩

/-- Appending a slash makes the slash-suffix test true. -/
theorem endsWith_slash_append (n : Str) : endsWith (n ++ str ("/")) (str ("/")) = true := by
  have h : str ("/") = ['/'] := rfl
  rw [h]
  unfold endsWith List.isSuffixOf
  rw [List.reverse_append]
  simp [List.isPrefixOf]

mutual
/-- Modelled from the spec: a fixed remote tree (the unchanged directory
hierarchy the crawler mirrors).  A directory node holds the names of its
files and its named sub-directories; index pages, the set of file URLs
and the well-formedness check below are derived from it. -/
inductive RTree where
  | node (files : List Str) (dirs : DirList)
inductive DirList where
  | nil
  | cons (name : Str) (t : RTree) (rest : DirList)
end

def DirList.names : DirList → List Str
  | DirList.nil => []
  | DirList.cons n _ rest => n :: DirList.names rest

/-- The index page of a directory node: its file names, then its
sub-directory names with a trailing slash, as an href list. -/
def RTree.listing : RTree → List Str
  | RTree.node files dirs => files ++ (DirList.names dirs).map (fun n => n ++ str ("/"))

mutual
/-- Serving the tree over HTTP: a GET of the URL of one of its
directories yields that directory's listing, anything else fails. -/
def RTree.fetchAt : RTree → Str → Str → Option (List Str)
  | RTree.node files dirs, dirUrl, u =>
    if u = dirUrl then some (RTree.listing (RTree.node files dirs))
    else DirList.fetchAt dirs dirUrl u
def DirList.fetchAt : DirList → Str → Str → Option (List Str)
  | DirList.nil, _, _ => none
  | DirList.cons n t rest, dirUrl, u =>
    match RTree.fetchAt t (dirUrl ++ n ++ str ("/")) u with
    | some l => some l
    | none => DirList.fetchAt rest dirUrl u
end

mutual
/-- The absolute URLs of every file anywhere in the tree. -/
def RTree.allFileUrls : RTree → Str → Finset Str
  | RTree.node files dirs, dirUrl =>
    (files.map (fun f => dirUrl ++ f)).toFinset ∪ DirList.allFileUrls dirs dirUrl
def DirList.allFileUrls : DirList → Str → Finset Str
  | DirList.nil, _ => ∅
  | DirList.cons n t rest, dirUrl =>
    RTree.allFileUrls t (dirUrl ++ n ++ str ("/")) ∪ DirList.allFileUrls rest dirUrl
end

/-- A well-formed entry name: non-empty, no slash, not `.` or `..` (the
names a real file server exposes as index-page links). -/
def validNameB (n : Str) : Bool :=
  !n.isEmpty && !(n.contains '/') && !(n == str (".")) && !(n == str ("..")) &&
  !(startsWith n (str ("?"))) && !(n.contains ':')

def nodupNamesB : List Str → Bool
  | [] => true
  | a :: as => !(as.contains a) && nodupNamesB as

mutual
/-- Well-formedness of a remote tree: every name is valid and no
directory lists the same name twice (in particular no name is both a
file and a sub-directory). -/
def RTree.validB : RTree → Bool
  | RTree.node files dirs =>
    (files ++ DirList.names dirs).all validNameB &&
    nodupNamesB (files ++ DirList.names dirs) &&
    DirList.validB dirs
def DirList.validB : DirList → Bool
  | DirList.nil => true
  | DirList.cons _ t rest => RTree.validB t && DirList.validB rest
end

/-- The environment presented by a fixed remote tree served at `baseUrl`:
`urljoin` of a directory URL (which ends in `/`) with a plain relative
child href is concatenation; `download` is an arbitrary transfer
oracle. -/
def treeEnv (t : RTree) (baseUrl : Str) (download : Str → Bool) : Env :=
  { fetch := RTree.fetchAt t baseUrl,
    resolve := fun cur href => cur ++ href,
    download := download }

/-- Every file link on any fetchable page resolves into `V`. -/
def FileLinksCovered (env : Env) (V : Finset Str) : Prop :=
  ∀ u l href, env.fetch u = some l → href ∈ l →
    endsWith href (str ("/")) = false → env.resolve u href ∈ V

mutual
theorem fetchAt_files_covered_tree :
    ∀ (t : RTree) (dirUrl u : Str) (l : List Str),
      RTree.fetchAt t dirUrl u = some l → ∀ href ∈ l, endsWith href (str ("/")) = false →
      (u ++ href) ∈ RTree.allFileUrls t dirUrl
  | RTree.node files dirs, dirUrl, u, l, hf, href, hm, hne => by
    unfold RTree.fetchAt at hf
    by_cases hu : u = dirUrl
    · rw [if_pos hu] at hf
      injection hf with hl
      subst hl
      subst hu
      unfold RTree.listing at hm
      rcases List.mem_append.mp hm with h | h
      · unfold RTree.allFileUrls
        apply Finset.mem_union_left
        rw [List.mem_toFinset]
        exact List.mem_map.mpr ⟨href, h, rfl⟩
      · rcases List.mem_map.mp h with ⟨n, hn, hh⟩
        rw [← hh, endsWith_slash_append] at hne
        cases hne
    · rw [if_neg hu] at hf
      unfold RTree.allFileUrls
      apply Finset.mem_union_right
      exact fetchAt_files_covered_dirlist dirs dirUrl u l hf href hm hne
theorem fetchAt_files_covered_dirlist :
    ∀ (ds : DirList) (dirUrl u : Str) (l : List Str),
      DirList.fetchAt ds dirUrl u = some l → ∀ href ∈ l, endsWith href (str ("/")) = false →
      (u ++ href) ∈ DirList.allFileUrls ds dirUrl
  | DirList.nil, _, _, _, hf, _, _, _ => by cases hf
  | DirList.cons n t rest, dirUrl, u, l, hf, href, hm, hne => by
    unfold DirList.fetchAt at hf
    cases hft : RTree.fetchAt t (dirUrl ++ n ++ str ("/")) u with
    | some l' =>
      rw [hft] at hf
      injection hf with hl
      subst hl
      unfold DirList.allFileUrls
      apply Finset.mem_union_left
      exact fetchAt_files_covered_tree t (dirUrl ++ n ++ str ("/")) u l' hft href hm hne
    | none =>
      rw [hft] at hf
      unfold DirList.allFileUrls
      apply Finset.mem_union_right
      exact fetchAt_files_covered_dirlist rest dirUrl u l hf href hm hne
end

/-- The tree's file-URL set covers every file link of every page. -/
theorem treeEnv_covered (t : RTree) (B : Str) (download : Str → Bool) (V : Finset Str)
    (hV : RTree.allFileUrls t B ⊆ V) :
    FileLinksCovered (treeEnv t B download) V :=
  fun u l href hf hm hne => hV (fetchAt_files_covered_tree t B u l hf href hm hne)

theorem routeLink_no_dispatch (env : Env) (B : Str)
    (recur : Str → Str → CrawlState → CrawlState × Bool)
    (cur lp href : Str) (st : CrawlState) (l0 : List Str)
    (hf : env.fetch cur = some l0) (hm : href ∈ l0)
    (hcov : FileLinksCovered env st.visitedUrls)
    (hrec : ∀ u lp' s, s.visitedUrls = st.visitedUrls →
      (recur u lp' s).1.visitedUrls = s.visitedUrls ∧
      (recur u lp' s).1.dispatched = s.dispatched) :
    (routeLink env B recur cur lp href st).1.visitedUrls = st.visitedUrls ∧
    (routeLink env B recur cur lp href st).1.dispatched = st.dispatched := by
  unfold routeLink
  dsimp only
  by_cases hk : keepHref href = false
  · rw [if_pos hk]
    exact ⟨rfl, rfl⟩
  · rw [if_neg hk]
    by_cases hs : startsWith (env.resolve cur href) B = false
    · rw [if_pos hs]
      exact ⟨rfl, rfl⟩
    · rw [if_neg hs]
      by_cases hself : env.resolve cur href = cur
      · rw [if_pos hself]
        exact ⟨rfl, rfl⟩
      · rw [if_neg hself]
        by_cases hdir : endsWith href (str ("/")) = true
        · rw [if_pos hdir]
          by_cases hnd : rstripSlashes (env.resolve cur href) ∉ st.visitedDirectories
          · rw [if_pos hnd]
            exact hrec _ _ _ rfl
          · rw [if_neg hnd]
            exact ⟨rfl, rfl⟩
        · rw [if_neg hdir]
          have hend : endsWith href (str ("/")) = false := by
            cases he : endsWith href (str ("/")) with
            | false => rfl
            | true => exact absurd he hdir
          have hin : env.resolve cur href ∈ st.visitedUrls := hcov cur l0 href hf hm hend
          rw [if_neg (fun hc => hc hin)]
          exact ⟨rfl, rfl⟩

theorem processLinks_no_dispatch (env : Env) (B : Str)
    (recur : Str → Str → CrawlState → CrawlState × Bool)
    (cur lp : Str) (l0 : List Str) (hf : env.fetch cur = some l0)
    (V : Finset Str) (hcov : FileLinksCovered env V)
    (hrec : ∀ u lp' s, s.visitedUrls = V →
      (recur u lp' s).1.visitedUrls = s.visitedUrls ∧
      (recur u lp' s).1.dispatched = s.dispatched) :
    ∀ (links : List Str) (st : CrawlState), (∀ h ∈ links, h ∈ l0) → st.visitedUrls = V →
      (processLinks env B recur cur lp links st).1.visitedUrls = V ∧
      (processLinks env B recur cur lp links st).1.dispatched = st.dispatched
  | [], st, _, hV => ⟨hV, rfl⟩
  | href :: rest, st, hsub, hV => by
    have hcov' : FileLinksCovered env st.visitedUrls := by
      rw [hV]
      exact hcov
    have h1 := routeLink_no_dispatch env B recur cur lp href st l0 hf
      (hsub href (List.mem_cons_self href rest)) hcov'
      (fun u lp' s hs => hrec u lp' s (hs.trans hV))
    simp only [processLinks]
    cases hr : routeLink env B recur cur lp href st with
    | mk st1 ok =>
      rw [hr] at h1
      cases ok with
      | true =>
        have hV1 : st1.visitedUrls = V := by
          rw [h1.1, hV]
        have h2 := processLinks_no_dispatch env B recur cur lp l0 hf V hcov hrec rest st1
          (fun h hmm => hsub h (List.mem_cons_of_mem _ hmm)) hV1
        exact ⟨h2.1, by rw [h2.2, h1.2]⟩
      | false =>
        exact ⟨by rw [h1.1, hV], h1.2⟩

theorem sync_mirror_no_dispatch (env : Env) (B : Str) :
    ∀ (fuel : Nat) (cur lp : Str) (st : CrawlState),
      FileLinksCovered env st.visitedUrls →
      (sync_mirror env B fuel cur lp st).1.visitedUrls = st.visitedUrls ∧
      (sync_mirror env B fuel cur lp st).1.dispatched = st.dispatched
  | 0, _, _, _, _ => ⟨rfl, rfl⟩
  | fuel + 1, cur, lp, st, hcov => by
    unfold sync_mirror
    dsimp only
    by_cases h1 : rstripSlashes cur ∈ st.visitedDirectories
    · rw [if_pos h1]
      exact ⟨rfl, rfl⟩
    · rw [if_neg h1]
      by_cases h2 : rstripSlashes cur ∈ st.visitedUrls
      · rw [if_pos h2]
        exact ⟨rfl, rfl⟩
      · rw [if_neg h2]
        cases hfetch : env.fetch cur with
        | none => exact ⟨rfl, rfl⟩
        | some links =>
          dsimp only
          by_cases he : links.isEmpty = true
          · rw [if_pos he]
            exact ⟨rfl, rfl⟩
          · rw [if_neg he]
            exact processLinks_no_dispatch env B
              (fun u lp' s => sync_mirror env B fuel u lp' s) cur lp links hfetch
              st.visitedUrls hcov
              (fun u lp' s hs =>
                sync_mirror_no_dispatch env B fuel u lp' s (by rw [hs]; exact hcov))
              links _ (fun h hmm => hmm) rfl

/-- A two-level demo tree: the root holds `a.iso` and `sub/`, and `sub/`
holds `b.iso`. -/
def demoTree : RTree :=
  RTree.node [str ("a.iso")]
    (DirList.cons (str ("sub")) (RTree.node [str ("b.iso")] DirList.nil) DirList.nil)

/-- Splitting at the first slash: two slash-free names followed by a
slash that build the same string are equal. -/
theorem append_slash_cancel :
    ∀ (n1 n2 x y : Str), '/' ∉ n1 → '/' ∉ n2 → n1 ++ '/' :: x = n2 ++ '/' :: y →
      n1 = n2 ∧ x = y
  | [], [], x, y, _, _, h => by
    simp only [List.nil_append] at h
    injection h with _ h2
    exact ⟨rfl, h2⟩
  | [], c :: n2, x, y, _, h2, h => by
    simp only [List.nil_append, List.cons_append] at h
    injection h with h1 _
    subst h1
    exact absurd (List.mem_cons_self _ _) h2
  | c :: n1, [], x, y, h1, _, h => by
    simp only [List.nil_append, List.cons_append] at h
    injection h with hc _
    rw [hc] at h1
    exact absurd (List.mem_cons_self _ _) h1
  | c :: n1, d :: n2, x, y, h1, h2, h => by
    simp only [List.cons_append] at h
    injection h with hc hrest
    subst hc
    have ih := append_slash_cancel n1 n2 x y
      (fun hm => h1 (List.mem_cons_of_mem c hm))
      (fun hm => h2 (List.mem_cons_of_mem c hm)) hrest
    exact ⟨by rw [ih.1], ih.2⟩

/-- Dropping trailing slashes ignores one appended slash. -/
theorem rstripSlashes_append_slash (xs : Str) :
    rstripSlashes (xs ++ str ("/")) = rstripSlashes xs := by
  have h : str ("/") = ['/'] := rfl
  rw [h]
  unfold rstripSlashes
  rw [List.reverse_append]
  rfl

/-- A string ending in a non-slash character is unchanged by `rstrip`. -/
theorem rstripSlashes_no_trailing (xs : Str) (c : Char) (hc : c ≠ '/') :
    rstripSlashes (xs ++ [c]) = xs ++ [c] := by
  unfold rstripSlashes
  rw [List.reverse_append]
  have hd : decide (c = '/') = false := by
    simp [hc]
  simp only [List.reverse_cons, List.reverse_nil, List.nil_append, List.dropWhile_cons, hd]
  simp [hc]

/-- The normalized form of a child directory URL `U ++ n ++ "/"` for a
slash-free non-empty name is `U ++ n`. -/
theorem rstripSlashes_dirUrl (U n : Str) (hn : n ≠ []) (hs : '/' ∉ n) :
    rstripSlashes (U ++ n ++ str ("/")) = U ++ n := by
  rw [rstripSlashes_append_slash]
  have hlast : n.getLast hn ∈ n := List.getLast_mem hn
  have hsplit : n.dropLast ++ [n.getLast hn] = n := List.dropLast_append_getLast hn
  have hc : n.getLast hn ≠ '/' := fun h => hs (h ▸ hlast)
  calc rstripSlashes (U ++ n) = rstripSlashes ((U ++ n.dropLast) ++ [n.getLast hn]) := by
        rw [List.append_assoc, hsplit]
    _ = (U ++ n.dropLast) ++ [n.getLast hn] := rstripSlashes_no_trailing _ _ hc
    _ = U ++ n := by rw [List.append_assoc, hsplit]

/-- `rstrip` never lengthens a string. -/
theorem length_rstripSlashes_le (s : Str) : (rstripSlashes s).length ≤ s.length := by
  unfold rstripSlashes
  rw [List.length_reverse]
  have h := congrArg List.length
    (List.takeWhile_append_dropWhile (fun c => decide (c = '/')) s.reverse)
  rw [List.length_append] at h
  rw [← List.length_reverse s]
  omega

/-- Appending something non-empty changes a string. -/
theorem append_ne_self (U x : Str) (hx : x ≠ []) : U ++ x ≠ U := by
  intro h
  have := congrArg List.length h
  rw [List.length_append] at this
  have : x.length = 0 := by omega
  exact hx (List.length_eq_zero.mp this)

/-- A prefix of `U` is a prefix of `U ++ x`. -/
theorem startsWith_append_of_startsWith (U B x : Str) (h : startsWith U B = true) :
    startsWith (U ++ x) B = true := by
  unfold startsWith at h ⊢
  rw [List.isPrefixOf_iff_prefix] at h ⊢
  exact h.trans (List.prefix_append U x)

/-- A one-character suffix is a member. -/
theorem mem_of_endsWith_single (s : Str) (c : Char) (h : endsWith s [c] = true) : c ∈ s := by
  unfold endsWith at h
  rw [List.isSuffixOf_iff_suffix] at h
  exact h.mem (List.mem_cons_self c [])

/-- A slash-free string does not end with a slash. -/
theorem endsWith_slash_eq_false (f : Str) (hf : '/' ∉ f) :
    endsWith f (str ("/")) = false := by
  cases h : endsWith f (str ("/")) with
  | false => rfl
  | true => exact absurd (mem_of_endsWith_single f '/' h) hf

/-- The empty list is a prefix of everything (executable form). -/
theorem nil_isPrefixOf (l : Str) : ([] : Str).isPrefixOf l = true := by
  cases l <;> rfl

/-- A prefix test no longer than the left part ignores an appended tail. -/
theorem isPrefixOf_append_of_length :
    ∀ (p n x : Str), p.length ≤ n.length → p.isPrefixOf (n ++ x) = p.isPrefixOf n
  | [], n, x, _ => by rw [nil_isPrefixOf, nil_isPrefixOf]
  | a :: p, [], x, h => by
    simp at h
  | a :: p, b :: n, x, h => by
    simp only [List.cons_append, List.isPrefixOf, List.append_eq]
    rw [isPrefixOf_append_of_length p n x (by simpa using Nat.le_of_succ_le_succ h)]

/-- Unpacking `validNameB`. -/
theorem validName_facts (n : Str) (h : validNameB n = true) :
    n ≠ [] ∧ '/' ∉ n ∧ ':' ∉ n ∧ startsWith n (str ("?")) = false ∧
    n ≠ str (".") ∧ n ≠ str ("..") := by
  unfold validNameB at h
  rw [Bool.and_eq_true, Bool.and_eq_true, Bool.and_eq_true, Bool.and_eq_true,
    Bool.and_eq_true] at h
  obtain ⟨⟨⟨⟨⟨h1, h2⟩, h3⟩, h4⟩, h5⟩, h6⟩ := h
  rw [Bool.not_eq_true'] at h1 h2 h3 h4 h5 h6
  refine ⟨?_, ?_, ?_, h5, ?_, ?_⟩
  · exact fun hnil => by rw [hnil] at h1; cases h1
  · intro hm
    have : n.contains '/' = true := List.elem_iff.mpr hm
    rw [this] at h2
    cases h2
  · intro hm
    have : n.contains ':' = true := List.elem_iff.mpr hm
    rw [this] at h6
    cases h6
  · intro he
    rw [he] at h3
    simp at h3
  · intro he
    rw [he] at h4
    simp at h4

/-- `takeWhile (· ≠ ':')` of a colon-free string is the whole string. -/
theorem takeWhile_ne_colon_eq_self (s : Str) (h : ':' ∉ s) :
    s.takeWhile (fun d => decide (d ≠ ':')) = s := by
  induction s with
  | nil => rfl
  | cons a l ih =>
    have ha : decide (a ≠ ':') = true := by
      simp only [decide_eq_true_eq]
      intro hx
      subst hx
      exact h (List.mem_cons_self _ _)
    rw [List.takeWhile_cons, ha]
    simp only [if_true]
    rw [ih (fun hm => h (List.mem_cons_of_mem a hm))]

/-- A colon-free string has no URL scheme. -/
theorem hasScheme_eq_false_of_no_colon (s : Str) (h : ':' ∉ s) : hasScheme s = false := by
  unfold hasScheme
  cases s with
  | nil => rfl
  | cons c l =>
    dsimp only
    rw [takeWhile_ne_colon_eq_self (c :: l) h]
    simp

/-- A valid entry name passes the crawler's link filter as a file href. -/
theorem keepHref_of_validName (n : Str) (h : validNameB n = true) :
    keepHref n = true := by
  obtain ⟨hne, hslash, hcolon, hq, _, _⟩ := validName_facts n h
  unfold keepHref
  rw [Bool.not_eq_true']
  have h1 : n.isEmpty = false := by
    cases n with
    | nil => exact absurd rfl hne
    | cons a l => rfl
  have h3 : startsWith n (str ("../")) = false := by
    cases hsw : startsWith n (str ("../")) with
    | false => rfl
    | true =>
      unfold startsWith at hsw
      rw [List.isPrefixOf_iff_prefix] at hsw
      exact absurd (hsw.subset (by decide)) hslash
  rw [h1, hq, h3, hasScheme_eq_false_of_no_colon n hcolon]
  rfl

/-- A valid entry name with a trailing slash passes the crawler's link
filter as a directory href. -/
theorem keepHref_dir_of_validName (n : Str) (h : validNameB n = true) :
    keepHref (n ++ str ("/")) = true := by
  obtain ⟨hne, hslash, hcolon, hq, _, hddot⟩ := validName_facts n h
  have hlen : 0 < n.length := List.length_pos.mpr hne
  unfold keepHref
  rw [Bool.not_eq_true']
  have h1 : (n ++ str ("/")).isEmpty = false := by
    cases n with
    | nil => exact absurd rfl hne
    | cons a l => rfl
  have h2 : startsWith (n ++ str ("/")) (str ("?")) = false := by
    unfold startsWith
    rw [isPrefixOf_append_of_length (str ("?")) n (str ("/")) (by simpa using hlen)]
    exact hq
  have h3 : startsWith (n ++ str ("/")) (str ("../")) = false := by
    by_cases hn3 : 3 ≤ n.length
    · unfold startsWith
      rw [isPrefixOf_append_of_length (str ("../")) n (str ("/")) (by simpa using hn3)]
      cases hsw : (str ("../")).isPrefixOf n with
      | false => rfl
      | true =>
        rw [List.isPrefixOf_iff_prefix] at hsw
        exact absurd (hsw.subset (by decide)) hslash
    · cases hsw : startsWith (n ++ str ("/")) (str ("../")) with
      | false => rfl
      | true =>
        unfold startsWith at hsw
        rw [List.isPrefixOf_iff_prefix] at hsw
        have hlen2 : (str ("../")).length ≤ n.length + 1 := by
          have := hsw.length_le
          simpa using this
        have hn2 : n.length = 2 := by
          have h3' : (str ("../")).length = 3 := rfl
          omega
        have heq : str ("../") = n ++ str ("/") :=
          hsw.eq_of_length (by rw [List.length_append, hn2]; decide)
        have : n = str ("..") := by
          have h4 : str ("..") ++ str ("/") = n ++ str ("/") := heq
          exact (List.append_cancel_right h4).symm
        exact absurd this hddot
  have h4 : hasScheme (n ++ str ("/")) = false := by
    apply hasScheme_eq_false_of_no_colon
    intro hm
    rcases List.mem_append.mp hm with hh | hh
    · exact hcolon hh
    · exact absurd hh (by decide)
  rw [h1, h2, h3, h4]
  rfl

mutual
/-- The normalized (trailing-slash-stripped) URLs of every directory of
the tree, the root included. -/
def RTree.dirNorms : RTree → Str → Finset Str
  | RTree.node _ dirs, U => insert (rstripSlashes U) (DirList.dirNorms dirs U)
def DirList.dirNorms : DirList → Str → Finset Str
  | DirList.nil, _ => ∅
  | DirList.cons n t rest, U =>
    RTree.dirNorms t (U ++ n ++ str ("/")) ∪ DirList.dirNorms rest U
end

mutual
/-- The raw directory URLs of the tree (each ending in a slash when the
root URL does). -/
def RTree.dirUrls : RTree → Str → Finset Str
  | RTree.node _ dirs, U => insert U (DirList.dirUrls dirs U)
def DirList.dirUrls : DirList → Str → Finset Str
  | DirList.nil, _ => ∅
  | DirList.cons n t rest, U =>
    RTree.dirUrls t (U ++ n ++ str ("/")) ∪ DirList.dirUrls rest U
end

mutual
/-- The nesting depth of the tree (a leaf directory has height 1). -/
def RTree.height : RTree → Nat
  | RTree.node _ dirs => DirList.height dirs + 1
def DirList.height : DirList → Nat
  | DirList.nil => 0
  | DirList.cons _ t rest => max (RTree.height t) (DirList.height rest)
end

/-- Membership of a named sub-directory in a directory listing. -/
def DirListMem : DirList → Str → RTree → Prop
  | DirList.nil, _, _ => False
  | DirList.cons n t rest, m, tc => (n = m ∧ t = tc) ∨ DirListMem rest m tc

mutual
/-- Every directory of the subtree, placed at its URL, is served by the
global fetch function with its own listing. -/
def RTree.ServedAt (t0 : RTree) (B : Str) : RTree → Str → Prop
  | RTree.node files dirs, U =>
    RTree.fetchAt t0 B U = some (RTree.listing (RTree.node files dirs)) ∧
    DirList.ServedAt t0 B dirs U
def DirList.ServedAt (t0 : RTree) (B : Str) : DirList → Str → Prop
  | DirList.nil, _ => True
  | DirList.cons n t rest, U =>
    RTree.ServedAt t0 B t (U ++ n ++ str ("/")) ∧ DirList.ServedAt t0 B rest U
end

/-- Unpacking the validity of a directory node. -/
theorem validB_node (files : List Str) (dirs : DirList)
    (h : RTree.validB (RTree.node files dirs) = true) :
    (∀ n ∈ files ++ DirList.names dirs, validNameB n = true) ∧
    nodupNamesB (files ++ DirList.names dirs) = true ∧
    DirList.validB dirs = true := by
  unfold RTree.validB at h
  rw [Bool.and_eq_true, Bool.and_eq_true] at h
  obtain ⟨⟨h1, h2⟩, h3⟩ := h
  rw [List.all_eq_true] at h1
  exact ⟨h1, h2, h3⟩

/-- `contains` on `Str` lists decides membership. -/
theorem strList_contains_eq_false_iff (l : List Str) (a : Str) :
    l.contains a = false ↔ a ∉ l := by
  constructor
  · intro h hm
    have h' : l.elem a = false := h
    rw [List.elem_iff.mpr hm] at h'
    cases h'
  · intro hm
    cases hc : l.contains a with
    | false => rfl
    | true => exact absurd (List.elem_iff.mp hc) hm

/-- Unpacking `nodupNamesB` over an append. -/
theorem nodupNamesB_append :
    ∀ (l1 l2 : List Str), nodupNamesB (l1 ++ l2) = true →
      nodupNamesB l1 = true ∧ nodupNamesB l2 = true ∧ ∀ x ∈ l1, x ∉ l2
  | [], l2, h => ⟨rfl, h, fun x hx => absurd hx (List.not_mem_nil x)⟩
  | a :: l1, l2, h => by
    simp only [List.cons_append, nodupNamesB] at h
    rw [Bool.and_eq_true] at h
    obtain ⟨h1, h2⟩ := h
    rw [Bool.not_eq_true'] at h1
    have hnm := (strList_contains_eq_false_iff _ _).mp h1
    have ih := nodupNamesB_append l1 l2 h2
    refine ⟨?_, ih.2.1, ?_⟩
    · unfold nodupNamesB
      rw [Bool.and_eq_true]
      refine ⟨?_, ih.1⟩
      rw [Bool.not_eq_true']
      rw [strList_contains_eq_false_iff]
      intro hm
      exact hnm (List.mem_append_left l2 hm)
    · intro x hx
      rcases List.mem_cons.mp hx with h | h
      · subst h
        intro hm
        exact hnm (List.mem_append_right l1 hm)
      · exact ih.2.2 x h

/-- Unpacking one step of `nodupNamesB`. -/
theorem nodupNamesB_cons (a : Str) (l : List Str) (h : nodupNamesB (a :: l) = true) :
    a ∉ l ∧ nodupNamesB l = true := by
  unfold nodupNamesB at h
  rw [Bool.and_eq_true] at h
  obtain ⟨h1, h2⟩ := h
  rw [Bool.not_eq_true'] at h1
  exact ⟨(strList_contains_eq_false_iff _ _).mp h1, h2⟩

/-- Decomposing membership in the union over a directory list. -/
theorem dirNorms_cases :
    ∀ (ds : DirList) (U : Str) (y : Str), y ∈ DirList.dirNorms ds U →
      ∃ n t, DirListMem ds n t ∧ y ∈ RTree.dirNorms t (U ++ n ++ str ("/"))
  | DirList.nil, _, y, hy => absurd hy (Finset.not_mem_empty y)
  | DirList.cons n t rest, U, y, hy => by
    unfold DirList.dirNorms at hy
    rcases Finset.mem_union.mp hy with h | h
    · exact ⟨n, t, Or.inl ⟨rfl, rfl⟩, h⟩
    · obtain ⟨m, tc, hmem, hm⟩ := dirNorms_cases rest U y h
      exact ⟨m, tc, Or.inr hmem, hm⟩

theorem fileUrls_cases :
    ∀ (ds : DirList) (U : Str) (y : Str), y ∈ DirList.allFileUrls ds U →
      ∃ n t, DirListMem ds n t ∧ y ∈ RTree.allFileUrls t (U ++ n ++ str ("/"))
  | DirList.nil, _, y, hy => absurd hy (Finset.not_mem_empty y)
  | DirList.cons n t rest, U, y, hy => by
    unfold DirList.allFileUrls at hy
    rcases Finset.mem_union.mp hy with h | h
    · exact ⟨n, t, Or.inl ⟨rfl, rfl⟩, h⟩
    · obtain ⟨m, tc, hmem, hm⟩ := fileUrls_cases rest U y h
      exact ⟨m, tc, Or.inr hmem, hm⟩

theorem dirUrls_cases :
    ∀ (ds : DirList) (U : Str) (y : Str), y ∈ DirList.dirUrls ds U →
      ∃ n t, DirListMem ds n t ∧ y ∈ RTree.dirUrls t (U ++ n ++ str ("/"))
  | DirList.nil, _, y, hy => absurd hy (Finset.not_mem_empty y)
  | DirList.cons n t rest, U, y, hy => by
    unfold DirList.dirUrls at hy
    rcases Finset.mem_union.mp hy with h | h
    · exact ⟨n, t, Or.inl ⟨rfl, rfl⟩, h⟩
    · obtain ⟨m, tc, hmem, hm⟩ := dirUrls_cases rest U y h
      exact ⟨m, tc, Or.inr hmem, hm⟩

/-- A listed sub-directory's name occurs in `names`. -/
theorem mem_names_of_dirListMem :
    ∀ (ds : DirList) (n : Str) (t : RTree), DirListMem ds n t → n ∈ DirList.names ds
  | DirList.nil, _, _, h => absurd h id
  | DirList.cons m tc rest, n, t, h => by
    unfold DirListMem at h
    rcases h with ⟨h1, _⟩ | h
    · rw [← h1]
      exact List.mem_cons_self m _
    · exact List.mem_cons_of_mem m (mem_names_of_dirListMem rest n t h)

theorem validB_of_dirListMem :
    ∀ (ds : DirList) (n : Str) (t : RTree), DirList.validB ds = true →
      DirListMem ds n t → RTree.validB t = true
  | DirList.nil, _, _, _, h => absurd h id
  | DirList.cons m tc rest, n, t, hv, h => by
    unfold DirList.validB at hv
    rw [Bool.and_eq_true] at hv
    rcases h with ⟨_, h2⟩ | h
    · rw [← h2]
      exact hv.1
    · exact validB_of_dirListMem rest n t hv.2 h

theorem servedAt_of_dirListMem (t0 : RTree) (B : Str) :
    ∀ (ds : DirList) (U n : Str) (t : RTree), DirList.ServedAt t0 B ds U →
      DirListMem ds n t → RTree.ServedAt t0 B t (U ++ n ++ str ("/"))
  | DirList.nil, _, _, _, _, h => absurd h id
  | DirList.cons m tc rest, U, n, t, hs, h => by
    unfold DirList.ServedAt at hs
    rcases h with ⟨h1, h2⟩ | h
    · rw [← h1, ← h2]
      exact hs.1
    · exact servedAt_of_dirListMem t0 B rest U n t hs.2 h

theorem height_le_of_dirListMem :
    ∀ (ds : DirList) (n : Str) (t : RTree), DirListMem ds n t →
      RTree.height t ≤ DirList.height ds
  | DirList.nil, _, _, h => absurd h id
  | DirList.cons m tc rest, n, t, h => by
    unfold DirList.height
    rcases h with ⟨_, h2⟩ | h
    · rw [← h2]
      exact le_max_left _ _
    · exact le_trans (height_le_of_dirListMem rest n t h) (le_max_right _ _)

/-- With no duplicate names, a name determines its subtree. -/
theorem dirListMem_unique :
    ∀ (ds : DirList) (n : Str) (t1 t2 : RTree), nodupNamesB (DirList.names ds) = true →
      DirListMem ds n t1 → DirListMem ds n t2 → t1 = t2
  | DirList.nil, _, _, _, _, h, _ => absurd h id
  | DirList.cons m tc rest, n, t1, t2, hnd, h1, h2 => by
    have hnd' := nodupNamesB_cons m (DirList.names rest) hnd
    rcases h1 with ⟨hm1, ht1⟩ | h1 <;> rcases h2 with ⟨hm2, ht2⟩ | h2
    · rw [← ht1, ← ht2]
    · exact absurd (mem_names_of_dirListMem rest n t2 h2) (hm1 ▸ hnd'.1)
    · exact absurd (mem_names_of_dirListMem rest n t1 h1) (hm2 ▸ hnd'.1)
    · exact dirListMem_unique rest n t1 t2 hnd'.2 h1 h2

theorem append_slash_ne_nil (n w : Str) : n ++ str ("/") ++ w ≠ [] := by
  intro hc
  have hlen := congrArg List.length hc
  rw [List.length_append, List.length_append] at hlen
  simp only [List.length_nil] at hlen
  have h1 : (str ("/")).length = 1 := rfl
  omega

theorem append_single_slash_ne_nil (n : Str) : n ++ str ("/") ≠ [] := by
  intro hc
  have hlen := congrArg List.length hc
  rw [List.length_append] at hlen
  simp only [List.length_nil] at hlen
  have h1 : (str ("/")).length = 1 := rfl
  omega

mutual
/-- Every normalized directory URL of a subtree is the normalized root
URL or extends the root URL. -/
theorem dirNorms_shape_tree :
    ∀ (t : RTree) (U : Str), RTree.validB t = true →
      ∀ y ∈ RTree.dirNorms t U, y = rstripSlashes U ∨ ∃ w, w ≠ [] ∧ y = U ++ w
  | RTree.node files dirs, U, hv, y, hy => by
    unfold RTree.dirNorms at hy
    obtain ⟨hnames, _, hvd⟩ := validB_node files dirs hv
    rcases Finset.mem_insert.mp hy with h | h
    · exact Or.inl h
    · exact Or.inr (dirNorms_shape_dirs dirs U
        (fun n hn => hnames n (List.mem_append_right files hn)) hvd y h)
theorem dirNorms_shape_dirs :
    ∀ (ds : DirList) (U : Str), (∀ n ∈ DirList.names ds, validNameB n = true) →
      DirList.validB ds = true →
      ∀ y ∈ DirList.dirNorms ds U, ∃ w, w ≠ [] ∧ y = U ++ w
  | DirList.nil, _, _, _, y, hy => absurd hy (Finset.not_mem_empty y)
  | DirList.cons n t rest, U, hnames, hv, y, hy => by
    unfold DirList.dirNorms at hy
    have hvn := validName_facts n (hnames n (List.mem_cons_self n _))
    unfold DirList.validB at hv
    rw [Bool.and_eq_true] at hv
    rcases Finset.mem_union.mp hy with h | h
    · rcases dirNorms_shape_tree t (U ++ n ++ str ("/")) hv.1 y h with h1 | ⟨w, hw, h1⟩
      · rw [rstripSlashes_dirUrl U n hvn.1 hvn.2.1] at h1
        exact ⟨n, hvn.1, h1⟩
      · refine ⟨n ++ str ("/") ++ w, ?_, ?_⟩
        · exact append_slash_ne_nil n w
        · rw [h1]
          simp [List.append_assoc]
    · exact dirNorms_shape_dirs rest U
        (fun m hm => hnames m (List.mem_cons_of_mem n hm)) hv.2 y h
end

mutual
/-- Every file URL of a subtree strictly extends the subtree's URL. -/
theorem allFileUrls_shape_tree :
    ∀ (t : RTree) (U : Str), RTree.validB t = true →
      ∀ y ∈ RTree.allFileUrls t U, ∃ w, w ≠ [] ∧ y = U ++ w
  | RTree.node files dirs, U, hv, y, hy => by
    unfold RTree.allFileUrls at hy
    obtain ⟨hnames, _, hvd⟩ := validB_node files dirs hv
    rcases Finset.mem_union.mp hy with h | h
    · rw [List.mem_toFinset] at h
      rcases List.mem_map.mp h with ⟨f, hf, hfe⟩
      have hvf := validName_facts f (hnames f (List.mem_append_left _ hf))
      exact ⟨f, hvf.1, hfe.symm⟩
    · exact allFileUrls_shape_dirs dirs U
        (fun m hm => hnames m (List.mem_append_right _ hm)) hvd y h
theorem allFileUrls_shape_dirs :
    ∀ (ds : DirList) (U : Str), (∀ n ∈ DirList.names ds, validNameB n = true) →
      DirList.validB ds = true →
      ∀ y ∈ DirList.allFileUrls ds U, ∃ w, w ≠ [] ∧ y = U ++ w
  | DirList.nil, _, _, _, y, hy => absurd hy (Finset.not_mem_empty y)
  | DirList.cons n t rest, U, hnames, hv, y, hy => by
    unfold DirList.allFileUrls at hy
    unfold DirList.validB at hv
    rw [Bool.and_eq_true] at hv
    rcases Finset.mem_union.mp hy with h | h
    · obtain ⟨w, hw, h1⟩ := allFileUrls_shape_tree t (U ++ n ++ str ("/")) hv.1 y h
      refine ⟨n ++ str ("/") ++ w, ?_, ?_⟩
      · exact append_slash_ne_nil n w
      · rw [h1]
        simp [List.append_assoc]
    · exact allFileUrls_shape_dirs rest U
        (fun m hm => hnames m (List.mem_cons_of_mem n hm)) hv.2 y h
end

mutual
/-- Every raw directory URL of a subtree is the root URL or extends it. -/
theorem dirUrls_shape_tree :
    ∀ (t : RTree) (U : Str),
      ∀ y ∈ RTree.dirUrls t U, y = U ∨ ∃ w, w ≠ [] ∧ y = U ++ w
  | RTree.node files dirs, U, y, hy => by
    unfold RTree.dirUrls at hy
    rcases Finset.mem_insert.mp hy with h | h
    · exact Or.inl h
    · exact Or.inr (dirUrls_shape_dirs dirs U y h)
theorem dirUrls_shape_dirs :
    ∀ (ds : DirList) (U : Str),
      ∀ y ∈ DirList.dirUrls ds U, ∃ w, w ≠ [] ∧ y = U ++ w
  | DirList.nil, _, y, hy => absurd hy (Finset.not_mem_empty y)
  | DirList.cons n t rest, U, y, hy => by
    unfold DirList.dirUrls at hy
    rcases Finset.mem_union.mp hy with h | h
    · rcases dirUrls_shape_tree t (U ++ n ++ str ("/")) y h with h1 | ⟨w, hw, h1⟩
      · refine ⟨n ++ str ("/"), append_single_slash_ne_nil n, ?_⟩
        rw [h1]
        simp [List.append_assoc]
      · refine ⟨n ++ str ("/") ++ w, append_slash_ne_nil n w, ?_⟩
        rw [h1]
        simp [List.append_assoc]
    · exact dirUrls_shape_dirs rest U y h
end

/-- Child-level shape: members of a child's normalized-URL set are the
child's normalized URL or extend it past a slash. -/
theorem dirNorms_child_shape (t : RTree) (U n : Str) (hv : RTree.validB t = true)
    (hne : n ≠ []) (hs : '/' ∉ n) :
    ∀ y ∈ RTree.dirNorms t (U ++ n ++ str ("/")),
      y = U ++ n ∨ ∃ z, y = (U ++ n) ++ '/' :: z := by
  intro y hy
  rcases dirNorms_shape_tree t (U ++ n ++ str ("/")) hv y hy with h | ⟨w, _, h⟩
  · rw [rstripSlashes_dirUrl U n hne hs] at h
    exact Or.inl h
  · refine Or.inr ⟨w, ?_⟩
    rw [h, List.append_assoc (U ++ n) (str ("/")) w]
    rfl

theorem allFileUrls_child_shape (t : RTree) (U n : Str) (hv : RTree.validB t = true) :
    ∀ y ∈ RTree.allFileUrls t (U ++ n ++ str ("/")),
      ∃ z, y = (U ++ n) ++ '/' :: z := by
  intro y hy
  obtain ⟨w, _, h⟩ := allFileUrls_shape_tree t (U ++ n ++ str ("/")) hv y hy
  refine ⟨w, ?_⟩
  rw [h, List.append_assoc (U ++ n) (str ("/")) w]
  rfl

theorem dirUrls_child_shape (t : RTree) (U n : Str) :
    ∀ y ∈ RTree.dirUrls t (U ++ n ++ str ("/")),
      ∃ z, y = (U ++ n) ++ '/' :: z := by
  intro y hy
  rcases dirUrls_shape_tree t (U ++ n ++ str ("/")) y hy with h | ⟨w, _, h⟩
  · exact ⟨[], by rw [h]; rfl⟩
  · refine ⟨w, ?_⟩
    rw [h, List.append_assoc (U ++ n) (str ("/")) w]
    rfl

/-- Two distinct slash-free names root incompatible URL families. -/
theorem sib_disjoint_core (U n m : Str) (hnm : n ≠ m) (hn : '/' ∉ n) (hm : '/' ∉ m)
    (y : Str)
    (h1 : y = U ++ n ∨ ∃ z, y = (U ++ n) ++ '/' :: z)
    (h2 : y = U ++ m ∨ ∃ z, y = (U ++ m) ++ '/' :: z) : False := by
  rcases h1 with h1 | ⟨z1, h1⟩ <;> rcases h2 with h2 | ⟨z2, h2⟩
  · rw [h1] at h2
    exact hnm (List.append_cancel_left h2)
  · rw [h1] at h2
    rw [List.append_assoc] at h2
    have h3 := List.append_cancel_left h2
    rw [h3] at hn
    exact hn (List.mem_append_right m (List.mem_cons_self '/' z2))
  · rw [h1] at h2
    rw [List.append_assoc] at h2
    have h3 := (List.append_cancel_left h2).symm
    rw [h3] at hm
    exact hm (List.mem_append_right n (List.mem_cons_self '/' z1))
  · rw [h1] at h2
    rw [List.append_assoc, List.append_assoc] at h2
    have h3 := List.append_cancel_left h2
    exact hnm (append_slash_cancel n m z1 z2 hn hm h3).1

/-- The normalized root URL never extends itself. -/
theorem rstrip_ne_append (U w : Str) (hw : w ≠ []) : rstripSlashes U ≠ U ++ w := by
  intro h
  have h1 := length_rstripSlashes_le U
  have h2 := congrArg List.length h
  rw [List.length_append] at h2
  have h3 : 0 < w.length := List.length_pos.mpr hw
  omega

/-- A file URL of this node's own listing never lies in a child's
normalized-directory set or file set, and never equals a different
child's entries (shape plus name disjointness). -/
theorem node_file_not_in_child_norms (U f n1 : Str) (t1 : RTree)
    (hvf : validNameB f = true) (hvn1 : validNameB n1 = true) (hfn : f ≠ n1)
    (hv1 : RTree.validB t1 = true) :
    (U ++ f) ∉ RTree.dirNorms t1 (U ++ n1 ++ str ("/")) := by
  intro hy
  obtain ⟨hne1, hs1, _, _, _, _⟩ := validName_facts n1 hvn1
  obtain ⟨_, hsf, _, _, _, _⟩ := validName_facts f hvf
  rcases dirNorms_child_shape t1 U n1 hv1 hne1 hs1 (U ++ f) hy with h | ⟨z, h⟩
  · exact hfn (List.append_cancel_left h)
  · rw [List.append_assoc] at h
    have h3 := List.append_cancel_left h
    exact hsf (by rw [h3]; exact List.mem_append_right n1 (List.mem_cons_self '/' z))

theorem node_file_not_in_child_files (U f n1 : Str) (t1 : RTree)
    (hvf : validNameB f = true) (hv1 : RTree.validB t1 = true) :
    (U ++ f) ∉ RTree.allFileUrls t1 (U ++ n1 ++ str ("/")) := by
  intro hy
  obtain ⟨_, hsf, _, _, _, _⟩ := validName_facts f hvf
  obtain ⟨z, h⟩ := allFileUrls_child_shape t1 U n1 hv1 (U ++ f) hy
  rw [List.append_assoc] at h
  have h3 := List.append_cancel_left h
  exact hsf (by rw [h3]; exact List.mem_append_right n1 (List.mem_cons_self '/' z))

mutual
/-- In a well-formed tree, no normalized directory URL is a file URL. -/
theorem disj_norms_files_tree :
    ∀ (t : RTree) (U : Str), RTree.validB t = true →
      ∀ y, y ∈ RTree.dirNorms t U → y ∈ RTree.allFileUrls t U → False
  | RTree.node files dirs, U, hv, y, hn, hf => by
    obtain ⟨hnames, hnodup, hvd⟩ := validB_node files dirs hv
    have hsplit := nodupNamesB_append files (DirList.names dirs) hnodup
    unfold RTree.dirNorms at hn
    unfold RTree.allFileUrls at hf
    rcases Finset.mem_insert.mp hn with h1 | h1
    · subst h1
      rcases Finset.mem_union.mp hf with h2 | h2
      · rw [List.mem_toFinset] at h2
        rcases List.mem_map.mp h2 with ⟨f, hfmem, hfe⟩
        have hvf := validName_facts f (hnames f (List.mem_append_left _ hfmem))
        exact rstrip_ne_append U f hvf.1 hfe.symm
      · obtain ⟨w, hw, he⟩ := allFileUrls_shape_dirs dirs U
          (fun m hm => hnames m (List.mem_append_right _ hm)) hvd _ h2
        exact rstrip_ne_append U w hw he
    · rcases Finset.mem_union.mp hf with h2 | h2
      · rw [List.mem_toFinset] at h2
        rcases List.mem_map.mp h2 with ⟨f, hfmem, hfe⟩
        have hvf := hnames f (List.mem_append_left _ hfmem)
        obtain ⟨n1, t1, hmem1, hy1⟩ := dirNorms_cases dirs U y h1
        have hn1names := mem_names_of_dirListMem dirs n1 t1 hmem1
        have hvn1 := hnames n1 (List.mem_append_right _ hn1names)
        have hfn : f ≠ n1 := fun he' => hsplit.2.2 f hfmem (he' ▸ hn1names)
        rw [← hfe] at hy1
        exact node_file_not_in_child_norms U f n1 t1 hvf hvn1 hfn
          (validB_of_dirListMem dirs n1 t1 hvd hmem1) hy1
      · exact disj_norms_files_dirs dirs U
          (fun m hm => hnames m (List.mem_append_right _ hm)) hsplit.2.1 hvd y h1 h2
theorem disj_norms_files_dirs :
    ∀ (ds : DirList) (U : Str), (∀ m ∈ DirList.names ds, validNameB m = true) →
      nodupNamesB (DirList.names ds) = true → DirList.validB ds = true →
      ∀ y, y ∈ DirList.dirNorms ds U → y ∈ DirList.allFileUrls ds U → False
  | DirList.nil, _, _, _, _, y, hn, _ => absurd hn (Finset.not_mem_empty y)
  | DirList.cons n t rest, U, hnames, hnodup, hv, y, hn, hf => by
    unfold DirList.dirNorms at hn
    unfold DirList.allFileUrls at hf
    unfold DirList.validB at hv
    rw [Bool.and_eq_true] at hv
    have hnd := nodupNamesB_cons n (DirList.names rest) hnodup
    have hvn := validName_facts n (hnames n (List.mem_cons_self n _))
    rcases Finset.mem_union.mp hn with h1 | h1 <;> rcases Finset.mem_union.mp hf with h2 | h2
    · exact disj_norms_files_tree t (U ++ n ++ str ("/")) hv.1 y h1 h2
    · obtain ⟨m, t2, hmem2, hy2⟩ := fileUrls_cases rest U y h2
      have hmnames := mem_names_of_dirListMem rest m t2 hmem2
      have hvm := validName_facts m (hnames m (List.mem_cons_of_mem n hmnames))
      have hnm : n ≠ m := fun he => hnd.1 (he ▸ hmnames)
      exact sib_disjoint_core U n m hnm hvn.2.1 hvm.2.1 y
        (dirNorms_child_shape t U n hv.1 hvn.1 hvn.2.1 y h1)
        (Or.inr (allFileUrls_child_shape t2 U m
          (validB_of_dirListMem rest m t2 hv.2 hmem2) y hy2))
    · obtain ⟨m, t2, hmem2, hy2⟩ := dirNorms_cases rest U y h1
      have hmnames := mem_names_of_dirListMem rest m t2 hmem2
      have hvm := validName_facts m (hnames m (List.mem_cons_of_mem n hmnames))
      have hnm : m ≠ n := fun he => hnd.1 (he ▸ hmnames)
      exact sib_disjoint_core U m n hnm hvm.2.1 hvn.2.1 y
        (dirNorms_child_shape t2 U m (validB_of_dirListMem rest m t2 hv.2 hmem2)
          hvm.1 hvm.2.1 y hy2)
        (Or.inr (allFileUrls_child_shape t U n hv.1 y h2))
    · exact disj_norms_files_dirs rest U
        (fun m hm => hnames m (List.mem_cons_of_mem n hm)) hnd.2 hv.2 y h1 h2
end

mutual
/-- Fetching a URL outside a subtree's directory-URL set fails. -/
theorem fetchAt_none_tree :
    ∀ (t : RTree) (U u : Str), u ∉ RTree.dirUrls t U → RTree.fetchAt t U u = none
  | RTree.node files dirs, U, u, hu => by
    have h1 : u ≠ U := fun he => hu (by
      rw [he]
      unfold RTree.dirUrls
      exact Finset.mem_insert_self U _)
    have h2 : u ∉ DirList.dirUrls dirs U := fun hm => hu (by
      unfold RTree.dirUrls
      exact Finset.mem_insert_of_mem hm)
    unfold RTree.fetchAt
    rw [if_neg h1]
    exact fetchAt_none_dirs dirs U u h2
theorem fetchAt_none_dirs :
    ∀ (ds : DirList) (U u : Str), u ∉ DirList.dirUrls ds U → DirList.fetchAt ds U u = none
  | DirList.nil, _, _, _ => rfl
  | DirList.cons n t rest, U, u, hu => by
    have h1 : u ∉ RTree.dirUrls t (U ++ n ++ str ("/")) := fun hm => hu (by
      unfold DirList.dirUrls
      exact Finset.mem_union_left _ hm)
    have h2 : u ∉ DirList.dirUrls rest U := fun hm => hu (by
      unfold DirList.dirUrls
      exact Finset.mem_union_right _ hm)
    unfold DirList.fetchAt
    rw [fetchAt_none_tree t (U ++ n ++ str ("/")) u h1]
    exact fetchAt_none_dirs rest U u h2
end

/-- A successful fetch within one named sub-directory lifts through the
directory-list search. -/
theorem dirList_fetchAt_lift :
    ∀ (ds : DirList) (U n : Str) (tc : RTree),
      (∀ m ∈ DirList.names ds, validNameB m = true) →
      nodupNamesB (DirList.names ds) = true →
      DirListMem ds n tc →
      ∀ u l, u ∈ RTree.dirUrls tc (U ++ n ++ str ("/")) →
        RTree.fetchAt tc (U ++ n ++ str ("/")) u = some l →
        DirList.fetchAt ds U u = some l
  | DirList.nil, _, _, _, _, _, hmem, _, _, _, _ => absurd hmem id
  | DirList.cons m tm rest, U, n, tc, hnames, hnodup, hmem, u, l, hu, hf => by
    have hnd := nodupNamesB_cons m (DirList.names rest) hnodup
    unfold DirList.fetchAt
    rcases hmem with ⟨rfl, rfl⟩ | hmem'
    · rw [hf]
    · have hvm := validName_facts m (hnames m (List.mem_cons_self m _))
      have hvn := validName_facts n
        (hnames n (List.mem_cons_of_mem m (mem_names_of_dirListMem rest n tc hmem')))
      have hmn : m ≠ n := fun he => hnd.1 (he ▸ mem_names_of_dirListMem rest n tc hmem')
      have hnone : RTree.fetchAt tm (U ++ m ++ str ("/")) u = none := by
        apply fetchAt_none_tree
        intro hmem2
        exact sib_disjoint_core U m n hmn hvm.2.1 hvn.2.1 u
          (Or.inr (dirUrls_child_shape tm U m u hmem2))
          (Or.inr (dirUrls_child_shape tc U n u hu))
      rw [hnone]
      exact dirList_fetchAt_lift rest U n tc
        (fun k hk => hnames k (List.mem_cons_of_mem m hk)) hnd.2 hmem' u l hu hf

/-- A successful fetch within one named sub-directory lifts to the node. -/
theorem fetchAt_lift_node (files : List Str) (ds : DirList) (U n : Str) (tc : RTree)
    (hnames : ∀ m ∈ DirList.names ds, validNameB m = true)
    (hnodup : nodupNamesB (DirList.names ds) = true)
    (hmem : DirListMem ds n tc)
    (u : Str) (l : List Str) (hu : u ∈ RTree.dirUrls tc (U ++ n ++ str ("/")))
    (hf : RTree.fetchAt tc (U ++ n ++ str ("/")) u = some l) :
    RTree.fetchAt (RTree.node files ds) U u = some l := by
  have hne : u ≠ U := by
    obtain ⟨z, hz⟩ := dirUrls_child_shape tc U n u hu
    intro he
    rw [he] at hz
    have hlen := congrArg List.length hz
    rw [List.length_append, List.length_append, List.length_cons] at hlen
    omega
  unfold RTree.fetchAt
  rw [if_neg hne]
  exact dirList_fetchAt_lift ds U n tc hnames hnodup hmem u l hu hf

mutual
/-- `ServedAt` relative to one sub-directory lifts to the parent node. -/
theorem servedAt_lift_tree :
    ∀ (tsub : RTree) (Usub : Str) (files : List Str) (ds : DirList) (U n : Str)
      (tc : RTree),
      (∀ m ∈ DirList.names ds, validNameB m = true) →
      nodupNamesB (DirList.names ds) = true →
      DirListMem ds n tc →
      RTree.dirUrls tsub Usub ⊆ RTree.dirUrls tc (U ++ n ++ str ("/")) →
      RTree.ServedAt tc (U ++ n ++ str ("/")) tsub Usub →
      RTree.ServedAt (RTree.node files ds) U tsub Usub
  | RTree.node sf sd, Usub, files, ds, U, n, tc, hnames, hnodup, hmem, hsub, hserved => by
    unfold RTree.ServedAt at hserved ⊢
    refine ⟨?_, ?_⟩
    · refine fetchAt_lift_node files ds U n tc hnames hnodup hmem Usub _ ?_ hserved.1
      refine hsub ?_
      unfold RTree.dirUrls
      exact Finset.mem_insert_self _ _
    · refine servedAt_lift_dirs sd Usub files ds U n tc hnames hnodup hmem ?_ hserved.2
      intro x hx
      refine hsub ?_
      unfold RTree.dirUrls
      exact Finset.mem_insert_of_mem hx
theorem servedAt_lift_dirs :
    ∀ (sd : DirList) (Usub : Str) (files : List Str) (ds : DirList) (U n : Str)
      (tc : RTree),
      (∀ m ∈ DirList.names ds, validNameB m = true) →
      nodupNamesB (DirList.names ds) = true →
      DirListMem ds n tc →
      DirList.dirUrls sd Usub ⊆ RTree.dirUrls tc (U ++ n ++ str ("/")) →
      DirList.ServedAt tc (U ++ n ++ str ("/")) sd Usub →
      DirList.ServedAt (RTree.node files ds) U sd Usub
  | DirList.nil, _, _, _, _, _, _, _, _, _, _, _ => trivial
  | DirList.cons k tk rest, Usub, files, ds, U, n, tc, hnames, hnodup, hmem, hsub,
      hserved => by
    unfold DirList.ServedAt at hserved ⊢
    refine ⟨?_, ?_⟩
    · refine servedAt_lift_tree tk (Usub ++ k ++ str ("/")) files ds U n tc hnames hnodup
        hmem ?_ hserved.1
      intro x hx
      refine hsub ?_
      unfold DirList.dirUrls
      exact Finset.mem_union_left _ hx
    · refine servedAt_lift_dirs rest Usub files ds U n tc hnames hnodup hmem ?_ hserved.2
      intro x hx
      refine hsub ?_
      unfold DirList.dirUrls
      exact Finset.mem_union_right _ hx
end

mutual
/-- A well-formed tree serves itself from its own base URL. -/
theorem servedAt_self_tree :
    ∀ (t : RTree) (U : Str), RTree.validB t = true → RTree.ServedAt t U t U
  | RTree.node files ds, U, hv => by
    obtain ⟨hnames, hnodup, hvd⟩ := validB_node files ds hv
    have hsplit := nodupNamesB_append files (DirList.names ds) hnodup
    unfold RTree.ServedAt
    refine ⟨?_, ?_⟩
    · unfold RTree.fetchAt
      rw [if_pos rfl]
    · exact servedAt_self_dirs ds files ds U
        (fun m hm => hnames m (List.mem_append_right _ hm)) hsplit.2.1
        (fun k tk h => h) (fun k tk h => validB_of_dirListMem ds k tk hvd h)
theorem servedAt_self_dirs :
    ∀ (sd : DirList) (files : List Str) (ds : DirList) (U : Str),
      (∀ m ∈ DirList.names ds, validNameB m = true) →
      nodupNamesB (DirList.names ds) = true →
      (∀ k tk, DirListMem sd k tk → DirListMem ds k tk) →
      (∀ k tk, DirListMem sd k tk → RTree.validB tk = true) →
      DirList.ServedAt (RTree.node files ds) U sd U
  | DirList.nil, _, _, _, _, _, _, _ => trivial
  | DirList.cons k tk rest, files, ds, U, hnames, hnodup, hembed, hvalid => by
    unfold DirList.ServedAt
    refine ⟨?_, ?_⟩
    · have hself : RTree.ServedAt tk (U ++ k ++ str ("/")) tk (U ++ k ++ str ("/")) :=
        servedAt_self_tree tk (U ++ k ++ str ("/")) (hvalid k tk (Or.inl ⟨rfl, rfl⟩))
      exact servedAt_lift_tree tk (U ++ k ++ str ("/")) files ds U k tk hnames hnodup
        (hembed k tk (Or.inl ⟨rfl, rfl⟩)) (Finset.Subset.refl _) hself
    · exact servedAt_self_dirs rest files ds U hnames hnodup
        (fun k' tk' h => hembed k' tk' (Or.inr h))
        (fun k' tk' h => hvalid k' tk' (Or.inr h))
end

mutual
/-- The files of a served subtree are files of the whole tree. -/
theorem servedFiles_tree (t0 : RTree) (B : Str) :
    ∀ (t : RTree) (U : Str), RTree.validB t = true → RTree.ServedAt t0 B t U →
      RTree.allFileUrls t U ⊆ RTree.allFileUrls t0 B
  | RTree.node files ds, U, hv, hs => by
    obtain ⟨hnames, _, hvd⟩ := validB_node files ds hv
    unfold RTree.ServedAt at hs
    intro y hy
    unfold RTree.allFileUrls at hy
    rcases Finset.mem_union.mp hy with h | h
    · rw [List.mem_toFinset] at h
      rcases List.mem_map.mp h with ⟨f, hf, hfe⟩
      rw [← hfe]
      refine fetchAt_files_covered_tree t0 B U (RTree.listing (RTree.node files ds))
        hs.1 f ?_ ?_
      · unfold RTree.listing
        exact List.mem_append_left _ hf
      · exact endsWith_slash_eq_false f
          (validName_facts f (hnames f (List.mem_append_left _ hf))).2.1
    · exact servedFiles_dirs t0 B ds U hvd hs.2 h
theorem servedFiles_dirs (t0 : RTree) (B : Str) :
    ∀ (ds : DirList) (U : Str), DirList.validB ds = true →
      DirList.ServedAt t0 B ds U →
      DirList.allFileUrls ds U ⊆ RTree.allFileUrls t0 B
  | DirList.nil, _, _, _ => by
    unfold DirList.allFileUrls
    exact Finset.empty_subset _
  | DirList.cons n t rest, U, hv, hs => by
    unfold DirList.validB at hv
    rw [Bool.and_eq_true] at hv
    unfold DirList.ServedAt at hs
    unfold DirList.allFileUrls
    exact Finset.union_subset
      (servedFiles_tree t0 B t (U ++ n ++ str ("/")) hv.1 hs.1)
      (servedFiles_dirs t0 B rest U hv.2 hs.2)
end

/-- The link loop splits over an appended list. -/
theorem processLinks_append (env : Env) (B : Str)
    (recur : Str → Str → CrawlState → CrawlState × Bool) (cur lp : Str) :
    ∀ (l1 l2 : List Str) (st : CrawlState),
      processLinks env B recur cur lp (l1 ++ l2) st =
        match processLinks env B recur cur lp l1 st with
        | (st1, true) => processLinks env B recur cur lp l2 st1
        | (st1, false) => (st1, false)
  | [], l2, st => by
    simp only [List.nil_append, processLinks]
  | href :: rest, l2, st => by
    simp only [List.cons_append, processLinks]
    cases hr : routeLink env B recur cur lp href st with
    | mk st1 ok =>
      cases ok with
      | true => exact processLinks_append env B recur cur lp rest l2 st1
      | false => rfl

/-- Processing the file entries of a listing: every fresh valid file
name is dispatched (successfully) and collected into the visited set;
the in-run directory set is untouched. -/
theorem firstRun_files (t0 : RTree) (B : Str) (dl : Str → Bool) (hdl : ∀ u, dl u = true)
    (U lp : Str) (recur : Str → Str → CrawlState → CrawlState × Bool)
    (hscope : startsWith U B = true) :
    ∀ (fs : List Str) (st : CrawlState),
      (∀ f ∈ fs, validNameB f = true) →
      nodupNamesB fs = true →
      (∀ f ∈ fs, (U ++ f) ∉ st.visitedUrls) →
      (processLinks (treeEnv t0 B dl) B recur U lp fs st).2 = true ∧
      (processLinks (treeEnv t0 B dl) B recur U lp fs st).1.visitedUrls =
        st.visitedUrls ∪ (fs.map (fun f => U ++ f)).toFinset ∧
      (processLinks (treeEnv t0 B dl) B recur U lp fs st).1.visitedDirectories =
        st.visitedDirectories
  | [], st, _, _, _ => ⟨rfl, by simp [processLinks], rfl⟩
  | f :: fs, st, hval, hnodup, hfresh => by
    have hvf := validName_facts f (hval f (List.mem_cons_self f fs))
    have hnd := nodupNamesB_cons f fs hnodup
    have hkeep := keepHref_of_validName f (hval f (List.mem_cons_self f fs))
    have hsc : startsWith (U ++ f) B = true :=
      startsWith_append_of_startsWith U B f hscope
    have hself : U ++ f ≠ U := append_ne_self U f hvf.1
    have hfile : endsWith f (str ("/")) = false := endsWith_slash_eq_false f hvf.2.1
    have hnew : (U ++ f) ∉ st.visitedUrls := hfresh f (List.mem_cons_self f fs)
    have hd : dl (U ++ f) = true := hdl _
    have hroute : routeLink (treeEnv t0 B dl) B recur U lp f st =
        ({ st with
            dispatched := st.dispatched ++ [U ++ f],
            visitedUrls := insert (U ++ f) st.visitedUrls,
            savedVisitedFile := insert (U ++ f) st.visitedUrls }, true) := by
      unfold routeLink
      dsimp only [treeEnv]
      simp [hkeep, hsc, hself, hfile, hnew, hd]
    simp only [processLinks]
    rw [hroute]
    have ih := firstRun_files t0 B dl hdl U lp recur hscope fs
      { st with
          dispatched := st.dispatched ++ [U ++ f],
          visitedUrls := insert (U ++ f) st.visitedUrls,
          savedVisitedFile := insert (U ++ f) st.visitedUrls }
      (fun g hg => hval g (List.mem_cons_of_mem f hg)) hnd.2
      (fun g hg hm => by
        rcases Finset.mem_insert.mp hm with h | h
        · have : g = f := List.append_cancel_left h
          exact hnd.1 (this ▸ hg)
        · exact hfresh g (List.mem_cons_of_mem f hg) h)
    refine ⟨ih.1, ?_, ih.2.2⟩
    rw [ih.2.1]
    show insert (U ++ f) st.visitedUrls ∪ (fs.map (fun g => U ++ g)).toFinset =
      st.visitedUrls ∪ ((f :: fs).map (fun g => U ++ g)).toFinset
    rw [List.map_cons, List.toFinset_cons, Finset.insert_union, Finset.union_insert]

mutual
/-- A first crawl of a served, well-formed subtree from a state that has
seen none of it: the crawl completes, collects exactly the subtree's
file URLs into the visited set, and marks only the subtree's directories
as visited this run. -/
theorem firstRun_tree (t0 : RTree) (B : Str) (dl : Str → Bool) (hdl : ∀ u, dl u = true) :
    ∀ (t : RTree) (U lp : Str) (fuel : Nat) (st : CrawlState),
      RTree.ServedAt t0 B t U →
      RTree.validB t = true →
      startsWith U B = true →
      RTree.height t ≤ fuel →
      (∀ y ∈ RTree.dirNorms t U, y ∉ st.visitedDirectories) →
      (∀ y ∈ RTree.dirNorms t U, y ∉ RTree.allFileUrls t0 B) →
      (∀ y ∈ RTree.allFileUrls t U, y ∉ st.visitedUrls) →
      st.visitedUrls ⊆ RTree.allFileUrls t0 B →
      (sync_mirror (treeEnv t0 B dl) B fuel U lp st).2 = true ∧
      (sync_mirror (treeEnv t0 B dl) B fuel U lp st).1.visitedUrls =
        st.visitedUrls ∪ RTree.allFileUrls t U ∧
      (sync_mirror (treeEnv t0 B dl) B fuel U lp st).1.visitedDirectories ⊆
        st.visitedDirectories ∪ RTree.dirNorms t U
  | RTree.node files ds, U, lp, fuel, st, hserve, hv, hscope, hfuel, hdirs, hdnf,
      hfiles, hglob => by
    cases fuel with
    | zero =>
      exact absurd hfuel (by unfold RTree.height; omega)
    | succ fl =>
      obtain ⟨hnames, hnodup, hvd⟩ := validB_node files ds hv
      have hsplit := nodupNamesB_append files (DirList.names ds) hnodup
      unfold RTree.ServedAt at hserve
      have hroot_norm : rstripSlashes U ∈ RTree.dirNorms (RTree.node files ds) U := by
        unfold RTree.dirNorms
        exact Finset.mem_insert_self _ _
      have hg1 : rstripSlashes U ∉ st.visitedDirectories := hdirs _ hroot_norm
      have hg2 : rstripSlashes U ∉ st.visitedUrls :=
        fun hm => hdnf _ hroot_norm (hglob hm)
      have hfetch : (treeEnv t0 B dl).fetch U =
          some (RTree.listing (RTree.node files ds)) := hserve.1
      unfold sync_mirror
      dsimp only
      rw [if_neg hg1, if_neg hg2, hfetch]
      dsimp only
      have hfilemem : ∀ f ∈ files,
          (U ++ f) ∈ RTree.allFileUrls (RTree.node files ds) U := by
        intro f hf
        unfold RTree.allFileUrls
        apply Finset.mem_union_left
        rw [List.mem_toFinset]
        exact List.mem_map.mpr ⟨f, hf, rfl⟩
      have hdsnormsub : ∀ y ∈ DirList.dirNorms ds U,
          y ∈ RTree.dirNorms (RTree.node files ds) U := by
        intro y hy
        unfold RTree.dirNorms
        exact Finset.mem_insert_of_mem hy
      have hdsfilesub : ∀ y ∈ DirList.allFileUrls ds U,
          y ∈ RTree.allFileUrls (RTree.node files ds) U := by
        intro y hy
        unfold RTree.allFileUrls
        exact Finset.mem_union_right _ hy
      by_cases hempty : (RTree.listing (RTree.node files ds)).isEmpty = true
      · rw [if_pos hempty]
        have hfe : files = [] ∧ ds = DirList.nil := by
          unfold RTree.listing at hempty
          rw [List.isEmpty_iff] at hempty
          have h1 := List.append_eq_nil.mp hempty
          refine ⟨h1.1, ?_⟩
          have h2 := List.map_eq_nil.mp h1.2
          cases ds with
          | nil => rfl
          | cons n t rest => simp [DirList.names] at h2
        obtain ⟨rfl, rfl⟩ := hfe
        refine ⟨rfl, ?_, ?_⟩
        · show st.visitedUrls =
            st.visitedUrls ∪ RTree.allFileUrls (RTree.node [] DirList.nil) U
          unfold RTree.allFileUrls DirList.allFileUrls
          simp
        · show insert (rstripSlashes U) st.visitedDirectories ⊆
            st.visitedDirectories ∪ RTree.dirNorms (RTree.node [] DirList.nil) U
          intro x hx
          rcases Finset.mem_insert.mp hx with h | h
          · refine Finset.mem_union_right _ ?_
            rw [h]
            unfold RTree.dirNorms
            exact Finset.mem_insert_self _ _
          · exact Finset.mem_union_left _ h
      · rw [if_neg hempty]
        have hlist : RTree.listing (RTree.node files ds) =
            files ++ (DirList.names ds).map (fun n => n ++ str ("/")) := rfl
        rw [hlist, processLinks_append]
        have hfl := firstRun_files t0 B dl hdl U lp
          (fun u lp' s => sync_mirror (treeEnv t0 B dl) B fl u lp' s) hscope files
          { st with
              visitedDirectories := insert (rstripSlashes U) st.visitedDirectories,
              dirsCreated := st.dirsCreated ++ [lp],
              fetched := st.fetched ++ [U] }
          (fun f hf => hnames f (List.mem_append_left _ hf)) hsplit.1
          (fun f hf => hfiles (U ++ f) (hfilemem f hf))
        cases hpl : processLinks (treeEnv t0 B dl) B
            (fun u lp' s => sync_mirror (treeEnv t0 B dl) B fl u lp' s) U lp files
            { st with
                visitedDirectories := insert (rstripSlashes U) st.visitedDirectories,
                dirsCreated := st.dirsCreated ++ [lp],
                fetched := st.fetched ++ [U] } with
        | mk st4 ok4 =>
          rw [hpl] at hfl
          cases ok4 with
          | false => exact absurd hfl.1 (by simp)
          | true =>
            have hst4v : st4.visitedUrls =
                st.visitedUrls ∪ (files.map (fun f => U ++ f)).toFinset := hfl.2.1
            have hst4d : st4.visitedDirectories =
                insert (rstripSlashes U) st.visitedDirectories := hfl.2.2
            have hfilesglob : (files.map (fun f => U ++ f)).toFinset ⊆
                RTree.allFileUrls t0 B := by
              intro y hy
              rw [List.mem_toFinset] at hy
              rcases List.mem_map.mp hy with ⟨f, hf, hfe⟩
              rw [← hfe]
              refine fetchAt_files_covered_tree t0 B U
                (RTree.listing (RTree.node files ds)) hserve.1 f ?_ ?_
              · unfold RTree.listing
                exact List.mem_append_left _ hf
              · exact endsWith_slash_eq_false f
                  (validName_facts f (hnames f (List.mem_append_left _ hf))).2.1
            have hdl2 := firstRun_dirs t0 B dl hdl ds U lp fl st4 hserve.2 hvd
              (fun m hm => hnames m (List.mem_append_right _ hm)) hsplit.2.1
              hscope (by
                unfold RTree.height at hfuel
                omega)
              (by
                intro y hy hmem
                rw [hst4d] at hmem
                rcases Finset.mem_insert.mp hmem with h | h
                · obtain ⟨w, hw, he⟩ := dirNorms_shape_dirs ds U
                    (fun m hm => hnames m (List.mem_append_right _ hm)) hvd y hy
                  rw [he] at h
                  exact rstrip_ne_append U w hw h.symm
                · exact hdirs y (hdsnormsub y hy) h)
              (fun y hy => hdnf y (hdsnormsub y hy))
              (by
                intro y hy hmem
                rw [hst4v] at hmem
                rcases Finset.mem_union.mp hmem with h | h
                · exact hfiles y (hdsfilesub y hy) h
                · rw [List.mem_toFinset] at h
                  rcases List.mem_map.mp h with ⟨f, hf, hfe⟩
                  obtain ⟨m, t2, hmem2, hy2⟩ := fileUrls_cases ds U y hy
                  have hvf := hnames f (List.mem_append_left _ hf)
                  rw [← hfe] at hy2
                  exact node_file_not_in_child_files U f m t2 hvf
                    (validB_of_dirListMem ds m t2 hvd hmem2) hy2)
              (by
                rw [hst4v]
                exact Finset.union_subset hglob hfilesglob)
            refine ⟨hdl2.1, ?_, ?_⟩
            · rw [hdl2.2.1, hst4v, Finset.union_assoc]
              rfl
            · intro x hx
              rcases Finset.mem_union.mp (hdl2.2.2 hx) with h | h
              · rw [hst4d] at h
                rcases Finset.mem_insert.mp h with h1 | h1
                · refine Finset.mem_union_right _ ?_
                  rw [h1]
                  unfold RTree.dirNorms
                  exact Finset.mem_insert_self _ _
                · exact Finset.mem_union_left _ h1
              · refine Finset.mem_union_right _ ?_
                unfold RTree.dirNorms
                exact Finset.mem_insert_of_mem h
theorem firstRun_dirs (t0 : RTree) (B : Str) (dl : Str → Bool) (hdl : ∀ u, dl u = true) :
    ∀ (ds : DirList) (U lp : Str) (fuel : Nat) (st : CrawlState),
      DirList.ServedAt t0 B ds U →
      DirList.validB ds = true →
      (∀ m ∈ DirList.names ds, validNameB m = true) →
      nodupNamesB (DirList.names ds) = true →
      startsWith U B = true →
      DirList.height ds ≤ fuel →
      (∀ y ∈ DirList.dirNorms ds U, y ∉ st.visitedDirectories) →
      (∀ y ∈ DirList.dirNorms ds U, y ∉ RTree.allFileUrls t0 B) →
      (∀ y ∈ DirList.allFileUrls ds U, y ∉ st.visitedUrls) →
      st.visitedUrls ⊆ RTree.allFileUrls t0 B →
      (processLinks (treeEnv t0 B dl) B
        (fun u lp' s => sync_mirror (treeEnv t0 B dl) B fuel u lp' s) U lp
        ((DirList.names ds).map (fun n => n ++ str ("/"))) st).2 = true ∧
      (processLinks (treeEnv t0 B dl) B
        (fun u lp' s => sync_mirror (treeEnv t0 B dl) B fuel u lp' s) U lp
        ((DirList.names ds).map (fun n => n ++ str ("/"))) st).1.visitedUrls =
        st.visitedUrls ∪ DirList.allFileUrls ds U ∧
      (processLinks (treeEnv t0 B dl) B
        (fun u lp' s => sync_mirror (treeEnv t0 B dl) B fuel u lp' s) U lp
        ((DirList.names ds).map (fun n => n ++ str ("/"))) st).1.visitedDirectories ⊆
        st.visitedDirectories ∪ DirList.dirNorms ds U
  | DirList.nil, U, lp, fuel, st, _, _, _, _, _, _, _, _, _, _ => by
    refine ⟨rfl, ?_, ?_⟩
    · show st.visitedUrls = st.visitedUrls ∪ DirList.allFileUrls DirList.nil U
      unfold DirList.allFileUrls
      simp
    · show st.visitedDirectories ⊆ st.visitedDirectories ∪ DirList.dirNorms DirList.nil U
      exact Finset.subset_union_left
  | DirList.cons n t rest, U, lp, fuel, st, hserve, hv, hnames, hnodup, hscope, hfuel,
      hdirs, hdnf, hfiles, hglob => by
    unfold DirList.ServedAt at hserve
    unfold DirList.validB at hv
    rw [Bool.and_eq_true] at hv
    have hnd := nodupNamesB_cons n (DirList.names rest) hnodup
    have hvn := validName_facts n (hnames n (List.mem_cons_self n _))
    have hassoc : U ++ (n ++ str ("/")) = U ++ n ++ str ("/") :=
      (List.append_assoc U n (str ("/"))).symm
    have hchild_norm_mem : (U ++ n) ∈ DirList.dirNorms (DirList.cons n t rest) U := by
      unfold DirList.dirNorms
      apply Finset.mem_union_left
      unfold RTree.dirNorms
      cases t with
      | node tf td =>
        dsimp only
        rw [rstripSlashes_dirUrl U n hvn.1 hvn.2.1]
        exact Finset.mem_insert_self _ _
    have hkeep := keepHref_dir_of_validName n (hnames n (List.mem_cons_self n _))
    have hsc : startsWith (U ++ (n ++ str ("/"))) B = true :=
      startsWith_append_of_startsWith U B (n ++ str ("/")) hscope
    have hself : U ++ (n ++ str ("/")) ≠ U :=
      append_ne_self U (n ++ str ("/")) (append_single_slash_ne_nil n)
    have hdirhref : endsWith (n ++ str ("/")) (str ("/")) = true := endsWith_slash_append n
    have hfreshnorm : rstripSlashes (U ++ (n ++ str ("/"))) ∉ st.visitedDirectories := by
      rw [hassoc, rstripSlashes_dirUrl U n hvn.1 hvn.2.1]
      exact hdirs (U ++ n) hchild_norm_mem
    have hroute : routeLink (treeEnv t0 B dl) B
        (fun u lp' s => sync_mirror (treeEnv t0 B dl) B fuel u lp' s) U lp
        (n ++ str ("/")) st =
        sync_mirror (treeEnv t0 B dl) B fuel (U ++ (n ++ str ("/")))
          (pathJoin lp (stripSlashes (n ++ str ("/")))) st := by
      unfold routeLink
      dsimp only [treeEnv]
      simp [hkeep, hsc, hself, hdirhref, hfreshnorm]
    have htree := firstRun_tree t0 B dl hdl t (U ++ n ++ str ("/"))
      (pathJoin lp (stripSlashes (n ++ str ("/")))) fuel st hserve.1 hv.1
      (hassoc ▸ hsc)
      (le_trans (le_max_left _ _) hfuel)
      (fun y hy => hdirs y (by
        unfold DirList.dirNorms
        exact Finset.mem_union_left _ hy))
      (fun y hy => hdnf y (by
        unfold DirList.dirNorms
        exact Finset.mem_union_left _ hy))
      (fun y hy => hfiles y (by
        unfold DirList.allFileUrls
        exact Finset.mem_union_left _ hy))
      hglob
    simp only [DirList.names, List.map_cons]
    simp only [processLinks]
    rw [hroute]
    cases hrec : sync_mirror (treeEnv t0 B dl) B fuel (U ++ (n ++ str ("/")))
        (pathJoin lp (stripSlashes (n ++ str ("/")))) st with
    | mk st1 ok1 =>
      rw [hassoc] at hrec
      rw [hrec] at htree
      cases ok1 with
      | false => exact absurd htree.1 (by simp)
      | true =>
        have hst1v : st1.visitedUrls =
            st.visitedUrls ∪ RTree.allFileUrls t (U ++ n ++ str ("/")) := htree.2.1
        have hst1d : st1.visitedDirectories ⊆
            st.visitedDirectories ∪ RTree.dirNorms t (U ++ n ++ str ("/")) := htree.2.2
        have hrest := firstRun_dirs t0 B dl hdl rest U lp fuel st1 hserve.2 hv.2
          (fun m hm => hnames m (List.mem_cons_of_mem n hm)) hnd.2 hscope
          (le_trans (le_max_right _ _) hfuel)
          (by
            intro y hy hymem
            rcases Finset.mem_union.mp (hst1d hymem) with h | h
            · exact hdirs y (by
                unfold DirList.dirNorms
                exact Finset.mem_union_right _ hy) h
            · obtain ⟨m, t2, hmem2, hy2⟩ := dirNorms_cases rest U y hy
              have hvm := validName_facts m (hnames m
                (List.mem_cons_of_mem n (mem_names_of_dirListMem rest m t2 hmem2)))
              have hmn : m ≠ n :=
                fun he => hnd.1 (he ▸ mem_names_of_dirListMem rest m t2 hmem2)
              exact sib_disjoint_core U m n hmn hvm.2.1 hvn.2.1 y
                (dirNorms_child_shape t2 U m
                  (validB_of_dirListMem rest m t2 hv.2 hmem2) hvm.1 hvm.2.1 y hy2)
                (dirNorms_child_shape t U n hv.1 hvn.1 hvn.2.1 y h))
          (fun y hy => hdnf y (by
            unfold DirList.dirNorms
            exact Finset.mem_union_right _ hy))
          (by
            intro y hy hymem
            rw [hst1v] at hymem
            rcases Finset.mem_union.mp hymem with h | h
            · exact hfiles y (by
                unfold DirList.allFileUrls
                exact Finset.mem_union_right _ hy) h
            · obtain ⟨m, t2, hmem2, hy2⟩ := fileUrls_cases rest U y hy
              have hvm := validName_facts m (hnames m
                (List.mem_cons_of_mem n (mem_names_of_dirListMem rest m t2 hmem2)))
              have hmn : m ≠ n :=
                fun he => hnd.1 (he ▸ mem_names_of_dirListMem rest m t2 hmem2)
              exact sib_disjoint_core U m n hmn hvm.2.1 hvn.2.1 y
                (Or.inr (allFileUrls_child_shape t2 U m
                  (validB_of_dirListMem rest m t2 hv.2 hmem2) y hy2))
                (Or.inr (allFileUrls_child_shape t U n hv.1 y h)))
          (by
            rw [hst1v]
            exact Finset.union_subset hglob
              (servedFiles_tree t0 B t (U ++ n ++ str ("/")) hv.1 hserve.1))
        refine ⟨hrest.1, ?_, ?_⟩
        · rw [hrest.2.1, hst1v, Finset.union_assoc]
          rfl
        · intro x hx
          rcases Finset.mem_union.mp (hrest.2.2 hx) with h | h
          · rcases Finset.mem_union.mp (hst1d h) with h1 | h1
            · exact Finset.mem_union_left _ h1
            · refine Finset.mem_union_right _ ?_
              unfold DirList.dirNorms
              exact Finset.mem_union_left _ h1
          · refine Finset.mem_union_right _ ?_
            unfold DirList.dirNorms
            exact Finset.mem_union_right _ h
end

/-- C1: two successive crawls of an unchanged, well-formed remote tree.
The first run, started from an empty Visited Set with enough recursion
depth for the tree and with every dispatched transfer succeeding,
completes and leaves the Visited Set holding exactly the tree's file
URLs, which the run persists. The second run, started from that
persisted Visited Set, never invokes the Transfer Dispatcher: its
dispatched list stays empty and the Visited Set is unchanged, every
file link it rediscovers being already in the set and skipped. -/
theorem second_run_no_downloads (t : RTree) (b local_download_root : Str)
    (download : Str → Bool) (fuel1 fuel2 : Nat)
    (hvalid : RTree.validB t = true)
    (hdl : ∀ u, download u = true)
    (hfuel : RTree.height t ≤ fuel1) :
    (async_main_crawl (treeEnv t (target_base_url b) download) fuel1 b
      local_download_root ∅).2 = true ∧
    (async_main_crawl (treeEnv t (target_base_url b) download) fuel1 b
      local_download_root ∅).1.visitedUrls =
      RTree.allFileUrls t (target_base_url b) ∧
    (async_main_crawl (treeEnv t (target_base_url b) download) fuel2 b
      local_download_root (RTree.allFileUrls t (target_base_url b))).1.dispatched
      = [] ∧
    (async_main_crawl (treeEnv t (target_base_url b) download) fuel2 b
      local_download_root (RTree.allFileUrls t (target_base_url b))).1.visitedUrls
      = RTree.allFileUrls t (target_base_url b) := by
  have h1 := firstRun_tree t (target_base_url b) download hdl t (target_base_url b)
    local_download_root fuel1 (initialState ∅)
    (servedAt_self_tree t (target_base_url b) hvalid) hvalid
    (startsWith_self _) hfuel
    (fun y _ h => absurd h (Finset.not_mem_empty y))
    (fun y hy hf => disj_norms_files_tree t (target_base_url b) hvalid y hy hf)
    (fun y _ h => absurd h (Finset.not_mem_empty y))
    (fun y h => absurd h (Finset.not_mem_empty y))
  have h2 := sync_mirror_no_dispatch (treeEnv t (target_base_url b) download)
    (target_base_url b) fuel2 (target_base_url b) local_download_root
    (initialState (RTree.allFileUrls t (target_base_url b)))
    (treeEnv_covered t (target_base_url b) download _ (Finset.Subset.refl _))
  refine ⟨h1.1, ?_, h2.2, h2.1⟩
  have h3 := h1.2.1
  unfold async_main_crawl
  rw [h3]
  simp [initialState]

/-- Witness for C1: on the demo tree with every transfer succeeding, the
first run from an empty Visited Set completes and collects its two file
URLs, and the second run from that set dispatches nothing. -/
theorem second_run_no_downloads_witness :
    RTree.validB demoTree = true ∧
    RTree.height demoTree ≤ 3 ∧
    ((async_main_crawl (treeEnv demoTree (target_base_url (str ("http://h")))
        (fun _ => true)) 3 (str ("http://h")) (str ("/d")) ∅).2 = true ∧
    (async_main_crawl (treeEnv demoTree (target_base_url (str ("http://h")))
        (fun _ => true)) 3 (str ("http://h")) (str ("/d")) ∅).1.visitedUrls =
      RTree.allFileUrls demoTree (target_base_url (str ("http://h"))) ∧
    (async_main_crawl (treeEnv demoTree (target_base_url (str ("http://h")))
        (fun _ => true)) 3 (str ("http://h")) (str ("/d"))
      (RTree.allFileUrls demoTree
        (target_base_url (str ("http://h"))))).1.dispatched = [] ∧
    (async_main_crawl (treeEnv demoTree (target_base_url (str ("http://h")))
        (fun _ => true)) 3 (str ("http://h")) (str ("/d"))
      (RTree.allFileUrls demoTree
        (target_base_url (str ("http://h"))))).1.visitedUrls =
      RTree.allFileUrls demoTree (target_base_url (str ("http://h")))) :=
  ⟨by decide, by decide,
    second_run_no_downloads demoTree (str ("http://h")) (str ("/d"))
      (fun _ => true) 3 3 (by decide) (fun _ => rfl) (by decide)⟩
